import Mathlib

/-!
Verification of the tokenizer in `lib/tokenizer.js` (a PostCSS-style CSS
tokenizer patched with interpolation-span support for styled components).

The JavaScript source is shallowly embedded: the source text is a
`List Char`, offsets are `Nat`, JavaScript's `charCodeAt` (which yields
`NaN` out of range, comparing unequal to every character) is `List.get?`
(yielding `none`), `String.prototype.indexOf` returning `-1` is an
`Option Nat` returning `none`, and the closure state of `tokenizer`
(`pos`, `buffer`, `returned`, `currentToken`, plus the construction
options) is an explicit `TState` record threaded through `nextToken`.
Errors thrown by `unclosed` become the `Except.error` branch.
-/

/-- Interpolation span, modelling the JS option objects
`interpolations: Array of (start, end)`; the JS field `end` is named
`endPos` here because `end` is a Lean keyword. -/
structure Span where
  start : Nat
  endPos : Nat
deriving Repr, DecidableEq

/-- A token, modelling the JS array `[kind, text, ...offsets]`: `kind` is
the first entry (a string such as "space", "word" or a one-character
control kind), `text` the raw source slice, and `offsets` the remaining
numeric entries (none for whitespace, one for control tokens, two
otherwise). -/
structure Token where
  kind : String
  text : List Char
  offsets : List Nat
deriving Repr, DecidableEq

/-- The positional error thrown by the JS helper `unclosed(what)`:
`what` is "string", "bracket" or "comment"; `offset` is the value of
`pos` at the moment of the throw. -/
structure TokError where
  what : String
  offset : Nat
deriving Repr, DecidableEq

/-- The closure state of a `tokenizer(input, options)` instance: the
source text `css`, the `ignoreErrors` option, the `interpolations`
option, the cursor `pos`, the word-lookback stack `buffer` (head is the
top, i.e. the most recently pushed word token), the pushback stack
`returned` (head is the top), and the module-level variable
`currentToken` (which the JS leaves holding the previously produced
token between calls). -/
structure TState where
  css : List Char
  ignore : Bool
  interpolations : List Span
  pos : Nat
  buffer : List Token
  returned : List Token
  currentToken : Option Token
deriving Repr, DecidableEq

/-- Fresh tokenizer state, as produced by calling `tokenizer(input, options)`. -/
def mkTokenizer (css : List Char) (ignore : Bool) (interpolations : List Span) : TState :=
  ⟨css, ignore, interpolations, 0, [], [], none⟩

/-- JS `css.slice(a, b)` for `0 ≤ a ≤ b` (clipping at the end of the string). -/
def cssSlice (css : List Char) (a b : Nat) : List Char :=
  (css.drop a).take (b - a)

/-- The five whitespace character codes of the JS switch
(SPACE, NEWLINE, TAB, CR, FEED). -/
def isWsChar (c : Char) : Bool :=
  c = ' ' || c = '\n' || c = '\t' || c = '\r' || c = '\x0c'

/-- The single-character control codes handled by one switch case
(OPEN_SQUARE, CLOSE_SQUARE, OPEN_CURLY, CLOSE_CURLY, COLON, SEMICOLON,
CLOSE_PARENTHESES). -/
def isControlChar (c : Char) : Bool :=
  c = '[' || c = ']' || c = '\x7b' || c = '\x7d' || c = ':' || c = ';' || c = ')'

/-- Character class of the regex `RE_AT_END`. -/
def atEndChar (c : Char) : Bool :=
  c = '\t' || c = '\n' || c = '\x0c' || c = '\r' || c = ' ' || c = '"' || c = '#' ||
  c = '\'' || c = '(' || c = ')' || c = '/' || c = ';' || c = '[' || c = '\\' ||
  c = ']' || c = '\x7b' || c = '\x7d'

/-- Does `RE_AT_END` match at offset `j` of `css`? -/
def atEndAt (css : List Char) (j : Nat) : Bool :=
  match css.get? j with
  | some c => atEndChar c
  | none => false

/-- Character class part of the regex `RE_WORD_END`. -/
def wordEndChar (c : Char) : Bool :=
  c = '\t' || c = '\n' || c = '\x0c' || c = '\r' || c = ' ' || c = '!' || c = '"' ||
  c = '#' || c = '\'' || c = '(' || c = ')' || c = ':' || c = ';' || c = '@' ||
  c = '[' || c = '\\' || c = ']' || c = '\x7b' || c = '\x7d'

/-- Does `RE_WORD_END` match at offset `j` of `css` (the character class,
or a `/` immediately followed by `*`)? -/
def wordEndAt (css : List Char) (j : Nat) : Bool :=
  match css.get? j with
  | some c => wordEndChar c || (c = '/' && css.get? (j+1) = some '*')
  | none => false

/-- The regex `RE_HEX_ESCAPE` (a single hex digit, case-insensitive). -/
def isHexDigit (c : Char) : Bool :=
  ('0' ≤ c && c ≤ '9') || ('a' ≤ c && c ≤ 'f') || ('A' ≤ c && c ≤ 'F')

/-- Does `RE_HEX_ESCAPE` match `css.charAt(j)` (false out of range, as JS
`charAt` yields the empty string there)? -/
def hexAt (css : List Char) (j : Nat) : Bool :=
  match css.get? j with
  | some c => isHexDigit c
  | none => false

/-- JS `css.indexOf(ch, i)`: the least offset `j ≥ i` holding `ch`, as an
`Option` (JS returns `-1` when there is none). -/
def indexOfFrom (css : List Char) (ch : Char) (i : Nat) : Option Nat :=
  (List.range css.length).find? fun j => decide (i ≤ j ∧ css.get? j = some ch)

/-- JS `css.indexOf(two-character needle, i)` specialised to the needle
`*` followed by `/`: the least `j ≥ i` where that two-character string
occurs. -/
def indexOf2From (css : List Char) (i : Nat) : Option Nat :=
  (List.range css.length).find? fun j =>
    decide (i ≤ j ∧ css.get? j = some '*' ∧ css.get? (j+1) = some '/')

/-- First offset `j ≥ i` where the positional predicate `p` matches
(used for the `RE_AT_END` / `RE_WORD_END` forward searches, which set
`lastIndex` and call `test`). -/
def findPosFrom (css : List Char) (p : List Char → Nat → Bool) (i : Nat) : Option Nat :=
  (List.range css.length).find? fun j => decide (i ≤ j) && p css j

/-- Length of the run of consecutive backslashes ending immediately
before offset `i`, modelling the loops
`while (css.charCodeAt(escapePos - 1) === BACKSLASH) escapePos -= 1`;
the loop's `escaped` flag is true iff this count is odd. -/
def bsRun (css : List Char) (i : Nat) : Nat :=
  match i with
  | 0 => 0
  | j+1 => if css.get? j = some '\\' then bsRun css j + 1 else 0

/-- Length of the run of consecutive backslashes starting at offset `j`
(the number of iterations of
`while (css.charCodeAt(next + 1) === BACKSLASH) next += 1`
in the BACKSLASH case, with `escape` toggling per step). -/
def bsFwd (css : List Char) (j : Nat) : Nat :=
  ((css.drop j).takeWhile (fun c => c = '\\')).length

/-- Length of the run of consecutive hex digits starting at offset `j`
(the number of characters consumed beyond the first by
`while (RE_HEX_ESCAPE.test(css.charAt(next + 1))) next += 1`, plus one). -/
def hexFwd (css : List Char) (j : Nat) : Nat :=
  ((css.drop j).takeWhile isHexDigit).length

/-- First offset `j' ≥ j` holding a non-whitespace character (or lying
just past the whitespace run), modelling the whitespace-run loop
`do next += 1 while (code is one of the five whitespace codes)` with
`j` the first candidate offset. -/
def wsRunEnd (css : List Char) (j : Nat) : Nat :=
  j + ((css.drop j).takeWhile isWsChar).length

/-- The styled-components patch inside the `url(` terminator loop:
if some interpolation span strictly contains the candidate `)` offset
(the JS condition `item.start < next && next < item.end`), restart the
`)` search at that span's `end` (`css.indexOf(')', interpolation.end)`);
otherwise keep the candidate. -/
def adjustForInterp (css : List Char) (spans : List Span) (c : Nat) : Option Nat :=
  match spans.find? (fun it => decide (it.start < c ∧ c < it.endPos)) with
  | some it => indexOfFrom css ')' it.endPos
  | none => some c

/-- The escape-aware terminator search of the raw `url(` sub-mode
(the `do … while (escaped)` loop of the OPEN_PARENTHESES case, including
the styled interpolation skip): starting from candidate base `next`,
find the offset of the closing `)`, or `none` when the search exhausts
the input (JS `next === -1`).  Each loop iteration strictly increases
the candidate, so the loop terminates; `fuel` is a pure termination
device, never exhausted by callers (see `findUrlEndF_fuel_irrel`). -/
def findUrlEndF (css : List Char) (spans : List Span) : Nat → Nat → Option Nat
  | 0, _ => none
  | fuel+1, next =>
    match indexOfFrom css ')' (next+1) with
    | none => none
    | some c =>
      match adjustForInterp css spans c with
      | none => none
      | some c2 =>
        if bsRun css c2 % 2 = 1 then findUrlEndF css spans fuel c2 else some c2

/-- The `url(` terminator search with its fuel instantiated so that it
can never run out. -/
def findUrlEnd (css : List Char) (spans : List Span) (next : Nat) : Option Nat :=
  findUrlEndF css spans (css.length + 1) next

/-- The escape-aware terminator search of the quoted-string case
(the `do … while (escaped)` loop of the SINGLE_QUOTE/DOUBLE_QUOTE case):
starting from candidate base `next`, find the offset of the closing
quote, or `none` when the search exhausts the input.  `fuel` as in
`findUrlEndF`. -/
def findStringEndF (css : List Char) (q : Char) : Nat → Nat → Option Nat
  | 0, _ => none
  | fuel+1, next =>
    match indexOfFrom css q (next+1) with
    | none => none
    | some c =>
      if bsRun css c % 2 = 1 then findStringEndF css q fuel c else some c

/-- The quoted-string terminator search with its fuel instantiated so
that it can never run out. -/
def findStringEnd (css : List Char) (q : Char) (next : Nat) : Option Nat :=
  findStringEndF css q (css.length + 1) next

/-- The regex `RE_BAD_BRACKET` (`.` then one of newline, quote, `(`,
`/`, `\`) tested against the candidate `brackets` content. -/
def badBracket (content : List Char) : Bool :=
  (List.range content.length).any fun i =>
    match content.get? i, content.get? (i+1) with
    | some a, some b =>
      a ≠ '\n' && (b = '\n' || b = '"' || b = '\'' || b = '(' || b = '/' || b = '\\')
    | _, _ => false

/-- Text of the most recent buffered word, modelling
`prev = buffer.length > 0 ? buffer.pop()[1] : ''`. -/
def prevText (buffer : List Token) : List Char :=
  match buffer with
  | b :: _ => b.text
  | [] => []

/-- The lookahead test of the OPEN_PARENTHESES case: is the character
after the `(` a quote or whitespace (`n === SINGLE_QUOTE || …`)?  An
out-of-range lookahead (JS `NaN`) matches none of them. -/
def nonUrlNext (n : Option Char) : Bool :=
  n = some '\'' || n = some '"' || n = some ' ' || n = some '\n' ||
  n = some '\t' || n = some '\x0c' || n = some '\r'

/-- Whitespace case of the switch (NEWLINE/SPACE/TAB/CR/FEED). -/
def scanSpace (s : TState) : Except TokError (Option Token × TState) :=
  let next := wsRunEnd s.css (s.pos + 1)
  let t : Token := ⟨"space", cssSlice s.css s.pos next, []⟩
  .ok (some t, { s with pos := next, currentToken := some t })

/-- Single-character control-token case of the switch. -/
def scanControl (s : TState) (c : Char) : Except TokError (Option Token × TState) :=
  let t : Token := ⟨String.singleton c, [c], [s.pos]⟩
  .ok (some t, { s with pos := s.pos + 1, currentToken := some t })

/-- OPEN_PARENTHESES case of the switch: pop the word-lookback buffer;
when the popped word was `url` and the next character is not a quote or
whitespace, run the raw-url terminator search (degrading to a
one-character `brackets` token, or erroring `Unclosed bracket`, when it
fails); otherwise use the plain `indexOf`/`RE_BAD_BRACKET` logic, which
emits either a whole `brackets` token or a bare `(` control token. -/
def scanParen (s : TState) (iu : Bool) : Except TokError (Option Token × TState) :=
  let prev := prevText s.buffer
  let buf := s.buffer.tail
  let n := s.css.get? (s.pos + 1)
  if prev = "url".toList ∧ nonUrlNext n = false then
    match findUrlEnd s.css s.interpolations s.pos with
    | some next =>
      let t : Token := ⟨"brackets", cssSlice s.css s.pos (next+1), [s.pos, next]⟩
      .ok (some t, { s with pos := next + 1, buffer := buf, currentToken := some t })
    | none =>
      if s.ignore || iu then
        let t : Token := ⟨"brackets", cssSlice s.css s.pos (s.pos+1), [s.pos, s.pos]⟩
        .ok (some t, { s with pos := s.pos + 1, buffer := buf, currentToken := some t })
      else .error ⟨"bracket", s.pos⟩
  else
    match indexOfFrom s.css ')' (s.pos+1) with
    | none =>
      let t : Token := ⟨"(", ['('], [s.pos]⟩
      .ok (some t, { s with pos := s.pos + 1, buffer := buf, currentToken := some t })
    | some next =>
      let content := cssSlice s.css s.pos (next+1)
      if badBracket content then
        let t : Token := ⟨"(", ['('], [s.pos]⟩
        .ok (some t, { s with pos := s.pos + 1, buffer := buf, currentToken := some t })
      else
        let t : Token := ⟨"brackets", content, [s.pos, next]⟩
        .ok (some t, { s with pos := next + 1, buffer := buf, currentToken := some t })

/-- SINGLE_QUOTE/DOUBLE_QUOTE case of the switch: escape-aware search
for the matching quote; on failure, `Unclosed string` or (in permissive
mode) a truncated token with offsets `[pos, pos+1]`. -/
def scanQuoted (s : TState) (iu : Bool) (q : Char) : Except TokError (Option Token × TState) :=
  match findStringEnd s.css q s.pos with
  | some next =>
    let t : Token := ⟨"string", cssSlice s.css s.pos (next+1), [s.pos, next]⟩
    .ok (some t, { s with pos := next + 1, currentToken := some t })
  | none =>
    if s.ignore || iu then
      let t : Token := ⟨"string", cssSlice s.css s.pos (s.pos+2), [s.pos, s.pos+1]⟩
      .ok (some t, { s with pos := s.pos + 2, currentToken := some t })
    else .error ⟨"string", s.pos⟩

/-- AT case of the switch: `RE_AT_END` forward search. -/
def scanAt (s : TState) : Except TokError (Option Token × TState) :=
  let next := match findPosFrom s.css atEndAt (s.pos+1) with
    | none => s.css.length - 1
    | some m => m - 1
  let t : Token := ⟨"at-word", cssSlice s.css s.pos (next+1), [s.pos, next]⟩
  .ok (some t, { s with pos := next + 1, currentToken := some t })

/-- BACKSLASH case of the switch: count the backslash run to get the
escape parity; when net-escaping a character that is not `/` or
whitespace, consume it, then a hex-digit run and one optional trailing
space when that character is a hex digit. -/
def scanBackslash (s : TState) : Except TokError (Option Token × TState) :=
  let k := bsFwd s.css (s.pos + 1)
  let next1 := s.pos + k
  let code2 := s.css.get? (next1 + 1)
  let next2 :=
    if k % 2 = 0 ∧ code2 ≠ some '/' ∧ code2 ≠ some ' ' ∧ code2 ≠ some '\n' ∧
        code2 ≠ some '\t' ∧ code2 ≠ some '\r' ∧ code2 ≠ some '\x0c' then
      if hexAt s.css (next1 + 1) then
        let b := (next1 + 1) + (hexFwd s.css (next1 + 1) - 1)
        if s.css.get? (b+1) = some ' ' then b + 1 else b
      else next1 + 1
    else next1
  let t : Token := ⟨"word", cssSlice s.css s.pos (next2+1), [s.pos, next2]⟩
  .ok (some t, { s with pos := next2 + 1, currentToken := some t })

/-- Default case of the switch: the styled `$`-interpolation branch
(which, when no span starts at the cursor, falls through every branch
and returns the stale `currentToken` with the cursor advanced), the
block-comment branch, and the bare-word branch with the styled
word-extension patch. -/
def scanDefault (s : TState) (iu : Bool) (c : Char) : Except TokError (Option Token × TState) :=
  if c = '$' then
    match s.interpolations.find? (fun it => decide (it.start = s.pos)) with
    | some it =>
      let next := it.endPos
      let t : Token := ⟨"word", cssSlice s.css s.pos (next+1), [s.pos, next]⟩
      .ok (some t, { s with pos := next + 1, buffer := t :: s.buffer, currentToken := some t })
    | none => .ok (s.currentToken, { s with pos := s.pos + 1 })
  else if c = '/' ∧ s.css.get? (s.pos+1) = some '*' then
    match indexOf2From s.css (s.pos+2) with
    | some m =>
      let t : Token := ⟨"comment", cssSlice s.css s.pos (m+2), [s.pos, m+1]⟩
      .ok (some t, { s with pos := m + 2, currentToken := some t })
    | none =>
      if s.ignore || iu then
        let next := s.css.length
        let t : Token := ⟨"comment", cssSlice s.css s.pos (next+1), [s.pos, next]⟩
        .ok (some t, { s with pos := next + 1, currentToken := some t })
      else .error ⟨"comment", s.pos⟩
  else
    let next0 := match findPosFrom s.css wordEndAt (s.pos+1) with
      | none => s.css.length - 1
      | some m => m - 1
    let next := match s.interpolations.find?
        (fun it => decide (s.pos ≤ it.start ∧ it.start ≤ next0 + 1)) with
      | some it => it.endPos
      | none => next0
    let t : Token := ⟨"word", cssSlice s.css s.pos (next+1), [s.pos, next]⟩
    .ok (some t, { s with pos := next + 1, buffer := t :: s.buffer, currentToken := some t })

/-- The JS `nextToken(opts)`: pop the pushback stack if non-empty,
signal end-of-stream (`undefined`) past the end of input, and otherwise
dispatch on the character at the cursor exactly as the JS `switch`
does.  `iu` is `opts.ignoreUnclosed`. -/
def nextToken (s : TState) (iu : Bool) : Except TokError (Option Token × TState) :=
  match s.returned with
  | t :: rest => .ok (some t, { s with returned := rest })
  | [] =>
    match s.css.get? s.pos with
    | none => .ok (none, s)
    | some c =>
      if isWsChar c then scanSpace s
      else if isControlChar c then scanControl s c
      else if c = '(' then scanParen s iu
      else if c = '\'' || c = '"' then scanQuoted s iu c
      else if c = '@' then scanAt s
      else if c = '\\' then scanBackslash s
      else scanDefault s iu c

/-- The JS `back(token)`: push a token onto the pushback stack. -/
def back (s : TState) (t : Token) : TState :=
  { s with returned := t :: s.returned }

/-- The JS `endOfFile()`. -/
def endOfFile (s : TState) : Bool :=
  s.returned.isEmpty && decide (s.css.length ≤ s.pos)

/-- The JS `position()`. -/
def position (s : TState) : Nat :=
  s.pos

/-- Drive `nextToken` (with `opts` absent, i.e. `ignoreUnclosed` false)
until it signals end-of-stream, collecting the returned tokens; `fuel`
bounds the number of calls. -/
def runTokens (s : TState) (fuel : Nat) : Except TokError (List Token × TState) :=
  match fuel with
  | 0 => .ok ([], s)
  | fuel'+1 =>
    match nextToken s false with
    | .error e => .error e
    | .ok (none, s') => .ok ([], s')
    | .ok (some t, s') =>
      match runTokens s' fuel' with
      | .error e => .error e
      | .ok (ts, s2) => .ok (t :: ts, s2)

/-- Run a fresh tokenizer to exhaustion (`css.length + 1` calls always
suffice because every produced token advances the cursor). -/
def runFull (css : List Char) (ignore : Bool) (spans : List Span) :
    Except TokError (List Token × TState) :=
  runTokens (mkTokenizer css ignore spans) (css.length + 1)

/-- The token list of a full run. -/
def tokensOf (css : List Char) (ignore : Bool) (spans : List Span) :
    Except TokError (List Token) :=
  (runFull css ignore spans).map (fun p => p.1)

/-- Common conclusion of the per-branch cursor lemmas: a produced token
covers exactly the source text between the old and the new cursor, the
cursor strictly advances, and the source, pushback stack and options
are untouched. -/
def StepOk (s s' : TState) (t : Token) : Prop :=
  s.pos < s'.pos ∧ t.text = cssSlice s.css s.pos s'.pos ∧ s'.css = s.css ∧
  s'.returned = s.returned ∧ s'.ignore = s.ignore ∧ s'.interpolations = s.interpolations

/-- Final source offset of a `word` token produced by the BACKSLASH case
when the escape is genuine and escapes a hex digit: the backslash run,
then the entire maximal hex-digit run, then one optional trailing
space character (only U+0020 — the code checks `=== SPACE`). -/
def hexEscapeEnd (css : List Char) (pos : Nat) : Nat :=
  pos + bsFwd css (pos + 1) + hexFwd css (pos + bsFwd css (pos + 1) + 1) +
    (if css.get? (pos + bsFwd css (pos + 1) +
        hexFwd css (pos + bsFwd css (pos + 1) + 1) + 1) = some ' '
     then 1 else 0)

/-- Kinds of the single-character control tokens: the seven kinds of the
control switch case plus `(`, which the normal parenthesized mode emits
as a bare control token on a missing or malformed closing `)`. -/
def controlKinds : List String := ["(", ")", "[", "]", "\x7b", "\x7d", ":", ";"]

/-- The offset-arity contract of a token, as the spec states it: a
`space` token carries no offsets, a single-character control token
carries exactly one (its `start`), every other kind carries two
(`start` and `end`). -/
def offsetsArityOk (t : Token) : Prop :=
  (t.kind = "space" → t.offsets = []) ∧
  (t.kind ≠ "space" → t.kind ∈ controlKinds → t.offsets.length = 1) ∧
  (t.kind ≠ "space" → t.kind ∉ controlKinds → t.offsets.length = 2)

theorem get?_some_lt {l : List Char} {j : Nat} {c : Char} (h : l.get? j = some c) :
    j < l.length := by
  by_contra hh
  rw [List.get?_eq_none.2 (Nat.le_of_not_lt hh)] at h
  exact Option.noConfusion h

theorem drop_eq_cons_of_get? {l : List Char} {j : Nat} {c : Char} (h : l.get? j = some c) :
    l.drop j = c :: l.drop (j+1) := by
  have hn : j < l.length := get?_some_lt h
  rw [List.drop_eq_getElem_cons hn]
  rw [List.get?_eq_getElem?, List.getElem?_eq_getElem hn] at h
  simp only [Option.some.injEq] at h
  rw [h]

theorem indexOfFrom_spec {css : List Char} {ch : Char} {i j : Nat}
    (h : indexOfFrom css ch i = some j) :
    i ≤ j ∧ j < css.length ∧ css.get? j = some ch := by
  have h1 := List.find?_some h
  have h3 := List.mem_range.mp (List.mem_of_find?_eq_some h)
  have h4 := of_decide_eq_true h1
  exact ⟨h4.1, h3, h4.2⟩

theorem indexOf2From_spec {css : List Char} {i j : Nat}
    (h : indexOf2From css i = some j) :
    i ≤ j ∧ j < css.length ∧ css.get? j = some '*' ∧ css.get? (j+1) = some '/' := by
  have h1 := List.find?_some h
  have h3 := List.mem_range.mp (List.mem_of_find?_eq_some h)
  have h4 := of_decide_eq_true h1
  exact ⟨h4.1, h3, h4.2.1, h4.2.2⟩

theorem findPosFrom_spec {css : List Char} {p : List Char → Nat → Bool} {i j : Nat}
    (h : findPosFrom css p i = some j) :
    i ≤ j ∧ j < css.length ∧ p css j = true := by
  have h1 := List.find?_some h
  have h3 := List.mem_range.mp (List.mem_of_find?_eq_some h)
  rw [Bool.and_eq_true] at h1
  exact ⟨of_decide_eq_true h1.1, h3, h1.2⟩

theorem wsRunEnd_ge (css : List Char) (j : Nat) : j ≤ wsRunEnd css j :=
  Nat.le_add_right _ _

theorem hexFwd_pos {css : List Char} {j : Nat} (h : hexAt css j = true) :
    1 ≤ hexFwd css j := by
  unfold hexAt at h
  cases hg : css.get? j with
  | none => rw [hg] at h; exact Bool.noConfusion h
  | some c =>
    rw [hg] at h
    dsimp only at h
    unfold hexFwd
    rw [drop_eq_cons_of_get? hg, List.takeWhile_cons, h]
    simp

theorem adjustForInterp_spec {css : List Char} {spans : List Span} {c c2 : Nat}
    (h : adjustForInterp css spans c = some c2) :
    c2 = c ∨ (c < c2 ∧ c2 < css.length) := by
  unfold adjustForInterp at h
  cases hf : spans.find? (fun it => decide (it.start < c ∧ c < it.endPos)) with
  | none =>
    rw [hf] at h
    simp only [Option.some.injEq] at h
    exact Or.inl h.symm
  | some it =>
    rw [hf] at h
    have h0 := List.find?_some hf
    have h1 := of_decide_eq_true h0
    have h2 := indexOfFrom_spec h
    exact Or.inr ⟨by omega, h2.2.1⟩

/-- The fuel of `findUrlEndF` is irrelevant as long as it exceeds the
remaining input length: the loop body strictly increases the candidate,
so the `0`-fuel branch is unreachable from `findUrlEnd`'s instantiation
and the definition models the unbounded JS loop exactly. -/
theorem findUrlEndF_fuel_irrel {css : List Char} {spans : List Span} :
    ∀ {fuel fuel' next : Nat}, css.length < next + fuel → css.length < next + fuel' →
    findUrlEndF css spans fuel next = findUrlEndF css spans fuel' next := by
  intro fuel
  induction fuel with
  | zero =>
    intro fuel' next h h'
    have hnone : indexOfFrom css ')' (next+1) = none := by
      cases hf : indexOfFrom css ')' (next+1) with
      | none => rfl
      | some j =>
        have := indexOfFrom_spec hf
        omega
    cases fuel' with
    | zero => rfl
    | succ f => simp only [findUrlEndF, hnone]
  | succ fuel ih =>
    intro fuel' next h h'
    cases fuel' with
    | zero =>
      have hnone : indexOfFrom css ')' (next+1) = none := by
        cases hf : indexOfFrom css ')' (next+1) with
        | none => rfl
        | some j =>
          have := indexOfFrom_spec hf
          omega
      simp only [findUrlEndF, hnone]
    | succ f =>
      simp only [findUrlEndF]
      cases hf : indexOfFrom css ')' (next+1) with
      | none => rfl
      | some c =>
        have hc := indexOfFrom_spec hf
        dsimp only
        cases ha : adjustForInterp css spans c with
        | none => rfl
        | some c2 =>
          have hc2 := adjustForInterp_spec ha
          dsimp only
          by_cases hesc : bsRun css c2 % 2 = 1
          · simp only [hesc, if_true]
            have hlt : c < css.length := hc.2.1
            have : next + 1 ≤ c := hc.1
            rcases hc2 with rfl | ⟨hgt, hlen⟩
            · exact ih (by omega) (by omega)
            · exact ih (by omega) (by omega)
          · simp only [hesc, if_false]

/-- Fuel irrelevance for `findStringEndF`; see `findUrlEndF_fuel_irrel`. -/
theorem findStringEndF_fuel_irrel {css : List Char} {q : Char} :
    ∀ {fuel fuel' next : Nat}, css.length < next + fuel → css.length < next + fuel' →
    findStringEndF css q fuel next = findStringEndF css q fuel' next := by
  intro fuel
  induction fuel with
  | zero =>
    intro fuel' next h h'
    have hnone : indexOfFrom css q (next+1) = none := by
      cases hf : indexOfFrom css q (next+1) with
      | none => rfl
      | some j =>
        have := indexOfFrom_spec hf
        omega
    cases fuel' with
    | zero => rfl
    | succ f => simp only [findStringEndF, hnone]
  | succ fuel ih =>
    intro fuel' next h h'
    cases fuel' with
    | zero =>
      have hnone : indexOfFrom css q (next+1) = none := by
        cases hf : indexOfFrom css q (next+1) with
        | none => rfl
        | some j =>
          have := indexOfFrom_spec hf
          omega
      simp only [findStringEndF, hnone]
    | succ f =>
      simp only [findStringEndF]
      cases hf : indexOfFrom css q (next+1) with
      | none => rfl
      | some c =>
        have hc := indexOfFrom_spec hf
        dsimp only
        by_cases hesc : bsRun css c % 2 = 1
        · simp only [hesc, if_true]
          exact ih (by omega) (by omega)
        · simp only [hesc, if_false]

theorem cssSlice_append {css : List Char} {a b : Nat} (h : a ≤ b) :
    cssSlice css a b ++ css.drop b = css.drop a := by
  unfold cssSlice
  have hd : (css.drop a).drop (b - a) = css.drop b := by
    rw [List.drop_drop]
    congr 1
    omega
  rw [← hd, List.take_append_drop]

theorem cssSlice_singleton {css : List Char} {a : Nat} {c : Char}
    (h : css.get? a = some c) : cssSlice css a (a+1) = [c] := by
  unfold cssSlice
  rw [drop_eq_cons_of_get? h]
  simp

theorem findStringEndF_gt {css : List Char} {q : Char} :
    ∀ {fuel next r : Nat}, findStringEndF css q fuel next = some r →
    next < r ∧ r < css.length := by
  intro fuel
  induction fuel with
  | zero => intro next r h; exact Option.noConfusion h
  | succ fuel ih =>
    intro next r h
    rw [findStringEndF] at h
    cases hf : indexOfFrom css q (next+1) with
    | none => rw [hf] at h; exact Option.noConfusion h
    | some c =>
      rw [hf] at h
      dsimp only at h
      have hc := indexOfFrom_spec hf
      by_cases hesc : bsRun css c % 2 = 1
      · rw [if_pos hesc] at h
        have := ih h
        omega
      · rw [if_neg hesc] at h
        have : c = r := Option.some.inj h
        omega

theorem findStringEnd_gt {css : List Char} {q : Char} {next r : Nat}
    (h : findStringEnd css q next = some r) : next < r ∧ r < css.length :=
  findStringEndF_gt h

theorem findUrlEndF_gt {css : List Char} {spans : List Span} :
    ∀ {fuel next r : Nat}, findUrlEndF css spans fuel next = some r →
    next < r ∧ r < css.length := by
  intro fuel
  induction fuel with
  | zero => intro next r h; exact Option.noConfusion h
  | succ fuel ih =>
    intro next r h
    rw [findUrlEndF] at h
    cases hf : indexOfFrom css ')' (next+1) with
    | none => rw [hf] at h; exact Option.noConfusion h
    | some c =>
      rw [hf] at h
      dsimp only at h
      have hc := indexOfFrom_spec hf
      cases ha : adjustForInterp css spans c with
      | none => rw [ha] at h; exact Option.noConfusion h
      | some c2 =>
        rw [ha] at h
        dsimp only at h
        have hc2 := adjustForInterp_spec ha
        by_cases hesc : bsRun css c2 % 2 = 1
        · rw [if_pos hesc] at h
          have := ih h
          rcases hc2 with rfl | ⟨hgt, hlen⟩ <;> omega
        · rw [if_neg hesc] at h
          have : c2 = r := Option.some.inj h
          rcases hc2 with rfl | ⟨hgt, hlen⟩ <;> omega

theorem findUrlEnd_gt {css : List Char} {spans : List Span} {next r : Nat}
    (h : findUrlEnd css spans next = some r) : next < r ∧ r < css.length :=
  findUrlEndF_gt h

theorem scanSpace_step {s : TState} {t : Token} {s' : TState}
    (h : scanSpace s = .ok (some t, s')) : StepOk s s' t := by
  simp only [scanSpace, Except.ok.injEq, Prod.mk.injEq, Option.some.injEq] at h
  obtain ⟨rfl, rfl⟩ := h
  refine ⟨?_, rfl, rfl, rfl, rfl, rfl⟩
  have := wsRunEnd_ge s.css (s.pos + 1)
  dsimp only
  omega

theorem scanControl_step {s : TState} {c : Char} {t : Token} {s' : TState}
    (hg : s.css.get? s.pos = some c)
    (h : scanControl s c = .ok (some t, s')) : StepOk s s' t := by
  simp only [scanControl, Except.ok.injEq, Prod.mk.injEq, Option.some.injEq] at h
  obtain ⟨rfl, rfl⟩ := h
  refine ⟨by dsimp only; omega, ?_, rfl, rfl, rfl, rfl⟩
  exact (cssSlice_singleton hg).symm

theorem scanQuoted_step {s : TState} {iu : Bool} {q : Char} {t : Token} {s' : TState}
    (h : scanQuoted s iu q = .ok (some t, s')) : StepOk s s' t := by
  unfold scanQuoted at h
  cases hf : findStringEnd s.css q s.pos with
  | some next =>
    rw [hf] at h
    simp only [Except.ok.injEq, Prod.mk.injEq, Option.some.injEq] at h
    obtain ⟨rfl, rfl⟩ := h
    have := findStringEnd_gt hf
    exact ⟨by dsimp only; omega, rfl, rfl, rfl, rfl, rfl⟩
  | none =>
    rw [hf] at h
    dsimp only at h
    by_cases hig : (s.ignore || iu) = true
    · rw [if_pos hig] at h
      simp only [Except.ok.injEq, Prod.mk.injEq, Option.some.injEq] at h
      obtain ⟨rfl, rfl⟩ := h
      exact ⟨by dsimp only; omega, rfl, rfl, rfl, rfl, rfl⟩
    · rw [if_neg hig] at h
      exact Except.noConfusion h

theorem scanParen_step {s : TState} {iu : Bool} {t : Token} {s' : TState}
    (hg : s.css.get? s.pos = some '(')
    (h : scanParen s iu = .ok (some t, s')) :
    StepOk s s' t ∧ s'.buffer = s.buffer.tail := by
  unfold scanParen at h
  by_cases hurl : prevText s.buffer = "url".toList ∧
      nonUrlNext (s.css.get? (s.pos + 1)) = false
  · rw [if_pos hurl] at h
    cases hf : findUrlEnd s.css s.interpolations s.pos with
    | some next =>
      rw [hf] at h
      simp only [Except.ok.injEq, Prod.mk.injEq, Option.some.injEq] at h
      obtain ⟨rfl, rfl⟩ := h
      have := findUrlEnd_gt hf
      exact ⟨⟨by dsimp only; omega, rfl, rfl, rfl, rfl, rfl⟩, rfl⟩
    | none =>
      rw [hf] at h
      dsimp only at h
      by_cases hig : (s.ignore || iu) = true
      · rw [if_pos hig] at h
        simp only [Except.ok.injEq, Prod.mk.injEq, Option.some.injEq] at h
        obtain ⟨rfl, rfl⟩ := h
        exact ⟨⟨by dsimp only; omega, rfl, rfl, rfl, rfl, rfl⟩, rfl⟩
      · rw [if_neg hig] at h
        exact Except.noConfusion h
  · rw [if_neg hurl] at h
    cases hf : indexOfFrom s.css ')' (s.pos + 1) with
    | none =>
      rw [hf] at h
      simp only [Except.ok.injEq, Prod.mk.injEq, Option.some.injEq] at h
      obtain ⟨rfl, rfl⟩ := h
      refine ⟨⟨by dsimp only; omega, ?_, rfl, rfl, rfl, rfl⟩, rfl⟩
      exact (cssSlice_singleton hg).symm
    | some next =>
      rw [hf] at h
      dsimp only at h
      have hb := indexOfFrom_spec hf
      by_cases hbad : badBracket (cssSlice s.css s.pos (next + 1)) = true
      · rw [if_pos hbad] at h
        simp only [Except.ok.injEq, Prod.mk.injEq, Option.some.injEq] at h
        obtain ⟨rfl, rfl⟩ := h
        refine ⟨⟨by dsimp only; omega, ?_, rfl, rfl, rfl, rfl⟩, rfl⟩
        exact (cssSlice_singleton hg).symm
      · rw [if_neg hbad] at h
        simp only [Except.ok.injEq, Prod.mk.injEq, Option.some.injEq] at h
        obtain ⟨rfl, rfl⟩ := h
        exact ⟨⟨by dsimp only; omega, rfl, rfl, rfl, rfl, rfl⟩, rfl⟩

theorem scanAt_step {s : TState} {t : Token} {s' : TState}
    (hp : s.pos < s.css.length)
    (h : scanAt s = .ok (some t, s')) : StepOk s s' t := by
  unfold scanAt at h
  cases hf : findPosFrom s.css atEndAt (s.pos + 1) with
  | none =>
    rw [hf] at h
    simp only [Except.ok.injEq, Prod.mk.injEq, Option.some.injEq] at h
    obtain ⟨rfl, rfl⟩ := h
    refine ⟨?_, rfl, rfl, rfl, rfl, rfl⟩
    show s.pos < s.css.length - 1 + 1
    omega
  | some m =>
    rw [hf] at h
    have hm := findPosFrom_spec hf
    simp only [Except.ok.injEq, Prod.mk.injEq, Option.some.injEq] at h
    obtain ⟨rfl, rfl⟩ := h
    refine ⟨?_, rfl, rfl, rfl, rfl, rfl⟩
    show s.pos < m - 1 + 1
    omega

theorem scanBackslash_step {s : TState} {t : Token} {s' : TState}
    (h : scanBackslash s = .ok (some t, s')) : StepOk s s' t := by
  simp only [scanBackslash, Except.ok.injEq, Prod.mk.injEq, Option.some.injEq] at h
  obtain ⟨rfl, rfl⟩ := h
  refine ⟨?_, rfl, rfl, rfl, rfl, rfl⟩
  dsimp only
  split
  · split
    · split <;> omega
    · omega
  · omega

theorem scanDefault_step {s : TState} {iu : Bool} {c : Char} {t : Token} {s' : TState}
    (hp : s.pos < s.css.length)
    (hwf : ∀ it ∈ s.interpolations, it.start ≤ it.endPos)
    (hnd : ¬ (c = '$' ∧
      s.interpolations.find? (fun it => decide (it.start = s.pos)) = none))
    (h : scanDefault s iu c = .ok (some t, s')) : StepOk s s' t := by
  unfold scanDefault at h
  by_cases hdol : c = '$'
  · rw [if_pos hdol] at h
    cases hfind : s.interpolations.find? (fun it => decide (it.start = s.pos)) with
    | none => exact absurd ⟨hdol, hfind⟩ hnd
    | some it =>
      rw [hfind] at h
      simp only [Except.ok.injEq, Prod.mk.injEq, Option.some.injEq] at h
      obtain ⟨rfl, rfl⟩ := h
      have h0 := List.find?_some hfind
      have h1 : it.start = s.pos := of_decide_eq_true h0
      have h2 := hwf it (List.mem_of_find?_eq_some hfind)
      refine ⟨?_, rfl, rfl, rfl, rfl, rfl⟩
      show s.pos < it.endPos + 1
      omega
  · rw [if_neg hdol] at h
    by_cases hcom : c = '/' ∧ s.css.get? (s.pos + 1) = some '*'
    · rw [if_pos hcom] at h
      cases hf : indexOf2From s.css (s.pos + 2) with
      | some m =>
        rw [hf] at h
        have hm := indexOf2From_spec hf
        simp only [Except.ok.injEq, Prod.mk.injEq, Option.some.injEq] at h
        obtain ⟨rfl, rfl⟩ := h
        exact ⟨by dsimp only; omega, rfl, rfl, rfl, rfl, rfl⟩
      | none =>
        rw [hf] at h
        dsimp only at h
        by_cases hig : (s.ignore || iu) = true
        · rw [if_pos hig] at h
          simp only [Except.ok.injEq, Prod.mk.injEq, Option.some.injEq] at h
          obtain ⟨rfl, rfl⟩ := h
          exact ⟨by dsimp only; omega, rfl, rfl, rfl, rfl, rfl⟩
        · rw [if_neg hig] at h
          exact Except.noConfusion h
    · rw [if_neg hcom] at h
      cases hfp : findPosFrom s.css wordEndAt (s.pos + 1) with
      | none =>
        rw [hfp] at h
        dsimp only at h
        cases hfind : s.interpolations.find?
            (fun it => decide (s.pos ≤ it.start ∧ it.start ≤ (s.css.length - 1) + 1)) with
        | some it =>
          rw [hfind] at h
          simp only [Except.ok.injEq, Prod.mk.injEq, Option.some.injEq] at h
          obtain ⟨rfl, rfl⟩ := h
          have h0 := List.find?_some hfind
          have h1 := of_decide_eq_true h0
          have h2 := hwf it (List.mem_of_find?_eq_some hfind)
          refine ⟨?_, rfl, rfl, rfl, rfl, rfl⟩
          show s.pos < it.endPos + 1
          omega
        | none =>
          rw [hfind] at h
          simp only [Except.ok.injEq, Prod.mk.injEq, Option.some.injEq] at h
          obtain ⟨rfl, rfl⟩ := h
          refine ⟨?_, rfl, rfl, rfl, rfl, rfl⟩
          show s.pos < s.css.length - 1 + 1
          omega
      | some m =>
        rw [hfp] at h
        dsimp only at h
        have hm := findPosFrom_spec hfp
        cases hfind : s.interpolations.find?
            (fun it => decide (s.pos ≤ it.start ∧ it.start ≤ (m - 1) + 1)) with
        | some it =>
          rw [hfind] at h
          simp only [Except.ok.injEq, Prod.mk.injEq, Option.some.injEq] at h
          obtain ⟨rfl, rfl⟩ := h
          have h0 := List.find?_some hfind
          have h1 := of_decide_eq_true h0
          have h2 := hwf it (List.mem_of_find?_eq_some hfind)
          refine ⟨?_, rfl, rfl, rfl, rfl, rfl⟩
          show s.pos < it.endPos + 1
          omega
        | none =>
          rw [hfind] at h
          simp only [Except.ok.injEq, Prod.mk.injEq, Option.some.injEq] at h
          obtain ⟨rfl, rfl⟩ := h
          refine ⟨?_, rfl, rfl, rfl, rfl, rfl⟩
          show s.pos < m - 1 + 1
          omega

theorem nextToken_step {s : TState} {iu : Bool} {t : Token} {s' : TState}
    (hr : s.returned = [])
    (hwf : ∀ it ∈ s.interpolations, it.start ≤ it.endPos)
    (hnd : ¬ (s.css.get? s.pos = some '$' ∧
      s.interpolations.find? (fun it => decide (it.start = s.pos)) = none))
    (h : nextToken s iu = .ok (some t, s')) : StepOk s s' t := by
  unfold nextToken at h
  rw [hr] at h
  dsimp only at h
  cases hg : s.css.get? s.pos with
  | none =>
    rw [hg] at h
    simp only [Except.ok.injEq, Prod.mk.injEq] at h
    exact Option.noConfusion h.1
  | some c =>
    rw [hg] at h
    dsimp only at h
    have hp : s.pos < s.css.length := get?_some_lt hg
    by_cases h1 : isWsChar c = true
    · rw [if_pos h1] at h
      exact scanSpace_step h
    · rw [if_neg h1] at h
      by_cases h2 : isControlChar c = true
      · rw [if_pos h2] at h
        exact scanControl_step hg h
      · rw [if_neg h2] at h
        by_cases h3 : c = '('
        · rw [if_pos h3] at h
          exact (scanParen_step (h3 ▸ hg) h).1
        · rw [if_neg h3] at h
          by_cases h4 : (c = '\'' || c = '"') = true
          · rw [if_pos h4] at h
            exact scanQuoted_step h
          · rw [if_neg h4] at h
            by_cases h5 : c = '@'
            · rw [if_pos h5] at h
              exact scanAt_step hp h
            · rw [if_neg h5] at h
              by_cases h6 : c = '\\'
              · rw [if_pos h6] at h
                exact scanBackslash_step h
              · rw [if_neg h6] at h
                refine scanDefault_step hp hwf ?_ h
                intro ⟨hc, hfind⟩
                exact hnd ⟨hc ▸ hg, hfind⟩

theorem scanSpace_some {s : TState} {r : Option Token} {s' : TState}
    (h : scanSpace s = .ok (r, s')) : ∃ t, r = some t := by
  simp only [scanSpace, Except.ok.injEq, Prod.mk.injEq] at h
  exact ⟨_, h.1.symm⟩

theorem scanControl_some {s : TState} {c : Char} {r : Option Token} {s' : TState}
    (h : scanControl s c = .ok (r, s')) : ∃ t, r = some t := by
  simp only [scanControl, Except.ok.injEq, Prod.mk.injEq] at h
  exact ⟨_, h.1.symm⟩

theorem scanParen_some {s : TState} {iu : Bool} {r : Option Token} {s' : TState}
    (h : scanParen s iu = .ok (r, s')) : ∃ t, r = some t := by
  unfold scanParen at h
  by_cases hurl : prevText s.buffer = "url".toList ∧
      nonUrlNext (s.css.get? (s.pos + 1)) = false
  · rw [if_pos hurl] at h
    cases hf : findUrlEnd s.css s.interpolations s.pos with
    | some next =>
      rw [hf] at h
      simp only [Except.ok.injEq, Prod.mk.injEq] at h
      exact ⟨_, h.1.symm⟩
    | none =>
      rw [hf] at h
      dsimp only at h
      by_cases hig : (s.ignore || iu) = true
      · rw [if_pos hig] at h
        simp only [Except.ok.injEq, Prod.mk.injEq] at h
        exact ⟨_, h.1.symm⟩
      · rw [if_neg hig] at h
        exact Except.noConfusion h
  · rw [if_neg hurl] at h
    cases hf : indexOfFrom s.css ')' (s.pos + 1) with
    | none =>
      rw [hf] at h
      simp only [Except.ok.injEq, Prod.mk.injEq] at h
      exact ⟨_, h.1.symm⟩
    | some next =>
      rw [hf] at h
      dsimp only at h
      by_cases hbad : badBracket (cssSlice s.css s.pos (next + 1)) = true
      · rw [if_pos hbad] at h
        simp only [Except.ok.injEq, Prod.mk.injEq] at h
        exact ⟨_, h.1.symm⟩
      · rw [if_neg hbad] at h
        simp only [Except.ok.injEq, Prod.mk.injEq] at h
        exact ⟨_, h.1.symm⟩

theorem scanQuoted_some {s : TState} {iu : Bool} {q : Char} {r : Option Token} {s' : TState}
    (h : scanQuoted s iu q = .ok (r, s')) : ∃ t, r = some t := by
  unfold scanQuoted at h
  repeat' split at h
  all_goals try exact Except.noConfusion h
  all_goals simp only [Except.ok.injEq, Prod.mk.injEq] at h
  all_goals exact ⟨_, h.1.symm⟩

theorem scanAt_some {s : TState} {r : Option Token} {s' : TState}
    (h : scanAt s = .ok (r, s')) : ∃ t, r = some t := by
  unfold scanAt at h
  repeat' split at h
  all_goals simp only [Except.ok.injEq, Prod.mk.injEq] at h
  all_goals exact ⟨_, h.1.symm⟩

theorem scanBackslash_some {s : TState} {r : Option Token} {s' : TState}
    (h : scanBackslash s = .ok (r, s')) : ∃ t, r = some t := by
  simp only [scanBackslash, Except.ok.injEq, Prod.mk.injEq] at h
  exact ⟨_, h.1.symm⟩

theorem scanDefault_some {s : TState} {iu : Bool} {c : Char} {r : Option Token} {s' : TState}
    (hnd : ¬ (c = '$' ∧
      s.interpolations.find? (fun it => decide (it.start = s.pos)) = none))
    (h : scanDefault s iu c = .ok (r, s')) : ∃ t, r = some t := by
  unfold scanDefault at h
  by_cases hdol : c = '$'
  · rw [if_pos hdol] at h
    cases hfind : s.interpolations.find? (fun it => decide (it.start = s.pos)) with
    | none => exact absurd ⟨hdol, hfind⟩ hnd
    | some it =>
      rw [hfind] at h
      simp only [Except.ok.injEq, Prod.mk.injEq] at h
      exact ⟨_, h.1.symm⟩
  · rw [if_neg hdol] at h
    repeat' split at h
    all_goals try exact Except.noConfusion h
    all_goals simp only [Except.ok.injEq, Prod.mk.injEq] at h
    all_goals exact ⟨_, h.1.symm⟩

/-- Case analysis of a successful `nextToken` call on a state with an
empty pushback stack, well-formed spans and no stale-`$` fallthrough:
either the cursor was at end of input (and nothing changes), or a fresh
token covering the next source slice is produced. -/
theorem nextToken_ok_cases {s : TState} {iu : Bool} {r : Option Token} {s' : TState}
    (hr : s.returned = [])
    (hwf : ∀ it ∈ s.interpolations, it.start ≤ it.endPos)
    (hnd : ¬ (s.css.get? s.pos = some '$' ∧
      s.interpolations.find? (fun it => decide (it.start = s.pos)) = none))
    (h : nextToken s iu = .ok (r, s')) :
    (r = none ∧ s' = s ∧ s.css.length ≤ s.pos) ∨
    (∃ t, r = some t ∧ StepOk s s' t) := by
  have hcopy := h
  unfold nextToken at hcopy
  rw [hr] at hcopy
  dsimp only at hcopy
  cases hg : s.css.get? s.pos with
  | none =>
    rw [hg] at hcopy
    simp only [Except.ok.injEq, Prod.mk.injEq] at hcopy
    exact Or.inl ⟨hcopy.1.symm, hcopy.2.symm, List.get?_eq_none.1 hg⟩
  | some c =>
    rw [hg] at hcopy
    dsimp only at hcopy
    have hsome : ∃ t, r = some t := by
      by_cases h1 : isWsChar c = true
      · rw [if_pos h1] at hcopy
        exact scanSpace_some hcopy
      · rw [if_neg h1] at hcopy
        by_cases h2 : isControlChar c = true
        · rw [if_pos h2] at hcopy
          exact scanControl_some hcopy
        · rw [if_neg h2] at hcopy
          by_cases h3 : c = '('
          · rw [if_pos h3] at hcopy
            exact scanParen_some hcopy
          · rw [if_neg h3] at hcopy
            by_cases h4 : (c = '\'' || c = '"') = true
            · rw [if_pos h4] at hcopy
              exact scanQuoted_some hcopy
            · rw [if_neg h4] at hcopy
              by_cases h5 : c = '@'
              · rw [if_pos h5] at hcopy
                exact scanAt_some hcopy
              · rw [if_neg h5] at hcopy
                by_cases h6 : c = '\\'
                · rw [if_pos h6] at hcopy
                  exact scanBackslash_some hcopy
                · rw [if_neg h6] at hcopy
                  refine scanDefault_some ?_ hcopy
                  intro ⟨hc, hfind⟩
                  exact hnd ⟨hc ▸ hg, hfind⟩
    obtain ⟨t, rfl⟩ := hsome
    exact Or.inr ⟨t, rfl, nextToken_step hr hwf hnd h⟩

/-- Driving the tokenizer from any cursor position with an empty
pushback stack, no interpolation spans and no `$` character in the
source: if the run returns with the cursor at or past the end of input,
the concatenation of the texts of the collected tokens is exactly the
remaining source suffix. -/
theorem runTokens_concat :
    ∀ (fuel : Nat) (s : TState) (ts : List Token) (sf : TState),
    s.returned = [] → s.interpolations = [] → '$' ∉ s.css →
    runTokens s fuel = .ok (ts, sf) → s.css.length ≤ sf.pos →
    (ts.map Token.text).flatten = s.css.drop s.pos ∧ sf.css = s.css := by
  intro fuel
  induction fuel with
  | zero =>
    intro s ts sf hr hi hd h hend
    simp only [runTokens, Except.ok.injEq, Prod.mk.injEq] at h
    obtain ⟨rfl, rfl⟩ := h
    exact ⟨(List.drop_eq_nil_of_le hend).symm, rfl⟩
  | succ fuel ih =>
    intro s ts sf hr hi hd h hend
    have hnd : ¬ (s.css.get? s.pos = some '$' ∧
        s.interpolations.find? (fun it => decide (it.start = s.pos)) = none) := by
      intro ⟨hg, _⟩
      exact hd (List.get?_mem hg)
    have hwf : ∀ it ∈ s.interpolations, it.start ≤ it.endPos := by
      rw [hi]
      intro it hit
      exact absurd hit (List.not_mem_nil it)
    rw [runTokens] at h
    cases hn : nextToken s false with
    | error e =>
      rw [hn] at h
      exact Except.noConfusion h
    | ok p =>
      obtain ⟨r, s'⟩ := p
      rw [hn] at h
      rcases nextToken_ok_cases hr hwf hnd hn with ⟨rfl, rfl, hpe⟩ | ⟨t, rfl, hstep⟩
      · dsimp only at h
        simp only [Except.ok.injEq, Prod.mk.injEq] at h
        obtain ⟨rfl, rfl⟩ := h
        exact ⟨(List.drop_eq_nil_of_le hpe).symm, rfl⟩
      · dsimp only at h
        cases hrest : runTokens s' fuel with
        | error e =>
          rw [hrest] at h
          exact Except.noConfusion h
        | ok q =>
          obtain ⟨ts', s2⟩ := q
          rw [hrest] at h
          dsimp only at h
          simp only [Except.ok.injEq, Prod.mk.injEq] at h
          obtain ⟨hts, hsf⟩ := h
          subst hts
          subst hsf
          obtain ⟨hlt, htext, hcss, hret, hig, hint⟩ := hstep
          have hrec := ih s' ts' s2 (hret.trans hr) (hint.trans hi)
            (by rw [hcss]; exact hd) hrest (by rw [hcss]; exact hend)
          constructor
          · simp only [List.map_cons, List.flatten_cons]
            rw [hrec.1, htext, hcss]
            exact cssSlice_append (Nat.le_of_lt hlt)
          · exact hrec.2.trans hcss

/-- C1 counterexample: the input `$a` is well formed (it has balanced
quotes, parentheses and comments) and is tokenized with no interpolation
spans, yet the run ends after the very first `nextToken` call — the `$`
falls through every classifier branch and returns the module variable
`currentToken`, still `undefined` — so the concatenation of the returned
token texts is empty and does not reproduce the input. -/
theorem C1_counterexample :
    tokensOf "$a".toList false [] = .ok [] ∧
    (List.map Token.text ([] : List Token)).flatten ≠ "$a".toList := by
  constructor
  · rfl
  · decide

/-- C1 (amended): for every input containing no `$` character, if a
full run of the tokenizer (with no interpolation spans) succeeds and
ends with the cursor at or past the end of input, concatenating the
`text` of every returned token in order yields exactly the original
source, with no character lost or duplicated. -/
theorem C1_concat_amended (css : List Char) (ig : Bool) (ts : List Token) (sf : TState)
    (hd : '$' ∉ css)
    (h : runFull css ig [] = .ok (ts, sf))
    (hend : css.length ≤ sf.pos) :
    (ts.map Token.text).flatten = css :=
  (runTokens_concat (css.length + 1) (mkTokenizer css ig []) ts sf rfl rfl hd h hend).1

/-- C1 witness: the amended concatenation theorem applied to the
concrete `$`-free input `a:b`. -/
theorem C1_witness :
    (([⟨"word", "a".toList, [0, 0]⟩, ⟨":", ":".toList, [1]⟩,
      ⟨"word", "b".toList, [2, 2]⟩] : List Token).map Token.text).flatten = "a:b".toList :=
  C1_concat_amended "a:b".toList false
    [⟨"word", "a".toList, [0, 0]⟩, ⟨":", ":".toList, [1]⟩, ⟨"word", "b".toList, [2, 2]⟩]
    ⟨"a:b".toList, false, [], 3,
      [⟨"word", "b".toList, [2, 2]⟩, ⟨"word", "a".toList, [0, 0]⟩], [],
      some ⟨"word", "b".toList, [2, 2]⟩⟩
    (by decide) (by rfl) (by decide)

/-- C3: for the input `"abc` (an unterminated double-quoted string)
with default options, the first `nextToken` call raises the
unclosed-string error carrying offset 0; with `ignoreErrors: true` it
instead returns a `string` token with the two-character truncated text
`"a`, scanning continues (a `word` token `bc` follows), and the final
state satisfies `endOfFile`. -/
theorem C3_unclosed_string :
    nextToken (mkTokenizer "\"abc".toList false []) false = .error ⟨"string", 0⟩ ∧
    runFull "\"abc".toList true [] =
      .ok ([⟨"string", "\"a".toList, [0, 1]⟩, ⟨"word", "bc".toList, [2, 3]⟩],
        ⟨"\"abc".toList, true, [], 4, [⟨"word", "bc".toList, [2, 3]⟩], [],
          some ⟨"word", "bc".toList, [2, 3]⟩⟩) ∧
    endOfFile ⟨"\"abc".toList, true, [], 4, [⟨"word", "bc".toList, [2, 3]⟩], [],
      some ⟨"word", "bc".toList, [2, 3]⟩⟩ = true ∧
    ("\"a".toList).length = 2 := by
  refine ⟨rfl, rfl, rfl, rfl⟩

/-- C5: pushing any token `t` with `back` and immediately calling
`nextToken` returns exactly `t` and restores the scanner state — the
cursor and every other field — to what it was before the pair of calls;
the intervening `nextToken` never touches the cursor. -/
theorem C5_back_roundtrip (s : TState) (t : Token) (iu : Bool) :
    nextToken (back s t) iu = .ok (some t, s) := rfl

/-- C9 counterexample: for `url(foo.png)` the `brackets` token does not
span the whole input `url(foo.png)`: it spans only `(foo.png)`
(offsets 3 to 11), the leading `url` being its own `word` token. -/
theorem C9_counterexample :
    tokensOf "url(foo.png)".toList false [] =
      .ok [⟨"word", "url".toList, [0, 2]⟩, ⟨"brackets", "(foo.png)".toList, [3, 11]⟩] ∧
    "(foo.png)".toList ≠ "url(foo.png)".toList := by
  constructor
  · rfl
  · decide

/-- C9 (amended): for the input `url(foo.png)` with no interpolation
spans, the scanner produces a `word` token with text `url` (offsets
0 to 2), followed by exactly one `brackets` token spanning `(foo.png)`
(offsets 3 to 11), and no other tokens. -/
theorem C9_url_tokens :
    tokensOf "url(foo.png)".toList false [] =
      .ok [⟨"word", "url".toList, [0, 2]⟩, ⟨"brackets", "(foo.png)".toList, [3, 11]⟩] := by
  rfl

/-- C2 counterexample: for `url(ab)c)` with the single interpolation
span `(4, 6)`, the candidate `)` found by the forward search sits at
offset 6, which under the claim's closed-inclusive reading lies inside
the span (4 ≤ 6 ≤ 6); yet the scanner terminates the `url(...)` token
exactly there (`brackets` token with offsets 3 to 6), because the code
tests strict containment `item.start < next && next < item.end`. -/
theorem C2_counterexample :
    tokensOf "url(ab)c)".toList false [⟨4, 6⟩] =
      .ok [⟨"word", "url".toList, [0, 2]⟩, ⟨"brackets", "(ab)".toList, [3, 6]⟩,
        ⟨"word", "c".toList, [7, 7]⟩, ⟨")", ")".toList, [8]⟩] ∧
    (Span.mk 4 6).start ≤ 6 ∧ 6 ≤ (Span.mk 4 6).endPos := by
  refine ⟨rfl, by decide, by decide⟩

/-- C2 (amended): when the candidate `)` found by an iteration of the
raw-url terminator search lies strictly inside an interpolation span
(`start < c < end`, exclusive at both bounds — the containment test the
code actually performs), the scanner does not terminate the `url(...)`
token at that `)`: any terminator `r` it eventually settles on lies at
or after the span's `end` offset (possibly exactly at it), in
particular strictly after the rejected candidate. -/
theorem C2_url_interp_skip {css : List Char} {spans : List Span} {next c r : Nat} {sp : Span}
    (h1 : indexOfFrom css ')' (next+1) = some c)
    (h2 : spans.find? (fun it => decide (it.start < c ∧ c < it.endPos)) = some sp)
    (h3 : findUrlEnd css spans next = some r) :
    c < sp.endPos ∧ sp.endPos ≤ r ∧ c < r := by
  have hpred := List.find?_some h2
  have hio := of_decide_eq_true hpred
  have ha : adjustForInterp css spans c = indexOfFrom css ')' sp.endPos := by
    unfold adjustForInterp
    rw [h2]
  unfold findUrlEnd at h3
  rw [findUrlEndF] at h3
  rw [h1] at h3
  dsimp only at h3
  rw [ha] at h3
  cases he : indexOfFrom css ')' sp.endPos with
  | none =>
    rw [he] at h3
    exact Option.noConfusion h3
  | some c2 =>
    rw [he] at h3
    dsimp only at h3
    have hc2 := indexOfFrom_spec he
    by_cases hesc : bsRun css c2 % 2 = 1
    · rw [if_pos hesc] at h3
      have := findUrlEndF_gt h3
      exact ⟨hio.2, by omega, by omega⟩
    · rw [if_neg hesc] at h3
      have : c2 = r := Option.some.inj h3
      exact ⟨hio.2, by omega, by omega⟩

/-- C2 witness: the amended skip theorem at a concrete input — in
`ab)cd)` with span `(1, 4)` the first candidate `)` (offset 2) is
strictly inside the span, and the search settles on offset 5. -/
theorem C2_witness : (2 : Nat) < (Span.mk 1 4).endPos ∧ (Span.mk 1 4).endPos ≤ 5 ∧ (2 : Nat) < 5 :=
  @C2_url_interp_skip "ab)cd)".toList [⟨1, 4⟩] 0 2 5 ⟨1, 4⟩
    (by decide) (by decide) (by rfl)

/-- Dispatch of `nextToken` on the character at the cursor: with an
empty pushback stack and the cursor on character `c`, the call reduces
to the JS switch over `c`. -/
theorem nextToken_dispatch {s : TState} {iu : Bool} {c : Char}
    (hr : s.returned = []) (hg : s.css.get? s.pos = some c) :
    nextToken s iu =
      (if isWsChar c then scanSpace s
       else if isControlChar c then scanControl s c
       else if c = '(' then scanParen s iu
       else if c = '\'' || c = '"' then scanQuoted s iu c
       else if c = '@' then scanAt s
       else if c = '\\' then scanBackslash s
       else scanDefault s iu c) := by
  unfold nextToken
  rw [hr]
  dsimp only
  rw [hg]

/-- The stale-token fallthrough of the styled `$` branch: when the
cursor sits on a `$` at which no interpolation span starts, no
classifier branch fires; the call returns the previous `currentToken`
(or end-of-stream on the first call) and advances the cursor by one. -/
theorem nextToken_dollar_fallthrough {s : TState} {iu : Bool}
    (hr : s.returned = []) (hg : s.css.get? s.pos = some '$')
    (hfind : s.interpolations.find? (fun it => decide (it.start = s.pos)) = none) :
    nextToken s iu = .ok (s.currentToken, { s with pos := s.pos + 1 }) := by
  rw [nextToken_dispatch hr hg]
  have hred : (if isWsChar '$' then scanSpace s
       else if isControlChar '$' then scanControl s '$'
       else if '$' = '(' then scanParen s iu
       else if '$' = '\'' || '$' = '"' then scanQuoted s iu '$'
       else if '$' = '@' then scanAt s
       else if '$' = '\\' then scanBackslash s
       else scanDefault s iu '$') = scanDefault s iu '$' := by rfl
  rw [hred]
  unfold scanDefault
  rw [if_pos rfl, hfind]

/-- C6 counterexample: for the input `$a` with no interpolation spans,
the cursor starts strictly before end-of-input with an empty pushback
stack, yet the first `nextToken` call produces no token at all: the `$`
character falls through the classifier and the stale (initial,
`undefined`) `currentToken` is returned while the cursor advances. -/
theorem C6_counterexample :
    nextToken (mkTokenizer "$a".toList false []) false =
      .ok (none, { mkTokenizer "$a".toList false [] with pos := 1 }) ∧
    (mkTokenizer "$a".toList false []).pos < "$a".toList.length := by
  refine ⟨rfl, by decide⟩

/-- C6 (amended): with an empty pushback stack and the cursor strictly
before end-of-input, whenever the character at the cursor is not a `$`
without a span starting there (and the spans are well formed), a
successful `nextToken` call always returns a freshly produced token
covering exactly the source text from the old cursor to the new one;
in the excluded `$` case the call instead returns the stale previous
token (or end-of-stream) and advances the cursor by one. -/
theorem C6_classification_total :
    (∀ (s : TState) (iu : Bool) (r : Option Token) (s' : TState),
      s.returned = [] → s.pos < s.css.length →
      (∀ it ∈ s.interpolations, it.start ≤ it.endPos) →
      ¬ (s.css.get? s.pos = some '$' ∧
        s.interpolations.find? (fun it => decide (it.start = s.pos)) = none) →
      nextToken s iu = .ok (r, s') →
      r.map Token.text = some (cssSlice s.css s.pos s'.pos) ∧ s.pos < s'.pos) ∧
    (∀ (s : TState) (iu : Bool),
      s.returned = [] → s.css.get? s.pos = some '$' →
      s.interpolations.find? (fun it => decide (it.start = s.pos)) = none →
      nextToken s iu = .ok (s.currentToken, { s with pos := s.pos + 1 })) := by
  constructor
  · intro s iu r s' hr hp hwf hnd h
    rcases nextToken_ok_cases hr hwf hnd h with ⟨rfl, rfl, hpe⟩ | ⟨t, rfl, hstep⟩
    · omega
    · obtain ⟨hlt, htext, _, _, _, _⟩ := hstep
      exact ⟨by rw [Option.map, htext], hlt⟩
  · intro s iu hr hg hfind
    exact nextToken_dollar_fallthrough hr hg hfind

/-- C6 witness: the fresh-token half applied at the concrete input `ab`
(first call produces the word token `ab` covering offsets 0 to 2). -/
theorem C6_witness :
    (some ⟨"word", "ab".toList, [0, 1]⟩ : Option Token).map Token.text =
      some (cssSlice "ab".toList 0 2) ∧ (0 : Nat) < 2 :=
  C6_classification_total.1 (mkTokenizer "ab".toList false []) false
    (some ⟨"word", "ab".toList, [0, 1]⟩)
    ⟨"ab".toList, false, [], 2, [⟨"word", "ab".toList, [0, 1]⟩], [],
      some ⟨"word", "ab".toList, [0, 1]⟩⟩
    rfl (by decide) (by intro it hit; exact absurd hit (List.not_mem_nil it))
    (by intro ⟨hg, _⟩; exact absurd hg (by decide)) rfl

/-- C7 counterexample: for the input `\1234567` the backslash genuinely
escapes the hex digit `1`, and the emitted `word` token extends across
the entire run of seven hex digits — more than the CSS-standard maximum
of six, which the code never enforces. -/
theorem C7_counterexample :
    tokensOf "\\1234567".toList false [] =
      .ok [⟨"word", "\\1234567".toList, [0, 7]⟩] ∧
    hexFwd "\\1234567".toList 1 = 7 ∧ 6 < 7 := by
  refine ⟨rfl, by rfl, by decide⟩

/-- C7 (amended): when a backslash genuinely escapes the next character
(even run of further backslashes, so odd net escape parity counting the
first) and that character is a hexadecimal digit, the emitted `word`
token extends across the backslash run, the entire maximal run of hex
digits (with no six-digit cap), plus at most one optional trailing
space character (U+0020 only). -/
theorem C7_hex_escape {s : TState} {iu : Bool} {c : Char}
    (hr : s.returned = [])
    (hg : s.css.get? s.pos = some '\\')
    (hk : bsFwd s.css (s.pos + 1) % 2 = 0)
    (hc : s.css.get? (s.pos + bsFwd s.css (s.pos + 1) + 1) = some c)
    (hhex : isHexDigit c = true) :
    nextToken s iu = .ok
      (some ⟨"word", cssSlice s.css s.pos (hexEscapeEnd s.css s.pos + 1),
        [s.pos, hexEscapeEnd s.css s.pos]⟩,
      { s with
        pos := hexEscapeEnd s.css s.pos + 1,
        currentToken := some ⟨"word", cssSlice s.css s.pos (hexEscapeEnd s.css s.pos + 1),
          [s.pos, hexEscapeEnd s.css s.pos]⟩ }) := by
  have hnum : ∀ d : Char, some c = some d → isHexDigit d = false → False := by
    intro d hsome hbad
    have : c = d := Option.some.inj hsome
    rw [this, hbad] at hhex
    exact Bool.noConfusion hhex
  have hA : bsFwd s.css (s.pos + 1) % 2 = 0 ∧
      s.css.get? (s.pos + bsFwd s.css (s.pos + 1) + 1) ≠ some '/' ∧
      s.css.get? (s.pos + bsFwd s.css (s.pos + 1) + 1) ≠ some ' ' ∧
      s.css.get? (s.pos + bsFwd s.css (s.pos + 1) + 1) ≠ some '\n' ∧
      s.css.get? (s.pos + bsFwd s.css (s.pos + 1) + 1) ≠ some '\t' ∧
      s.css.get? (s.pos + bsFwd s.css (s.pos + 1) + 1) ≠ some '\r' ∧
      s.css.get? (s.pos + bsFwd s.css (s.pos + 1) + 1) ≠ some '\x0c' := by
    refine ⟨hk, ?_, ?_, ?_, ?_, ?_, ?_⟩ <;>
      (rw [hc]; intro hcontra; exact hnum _ hcontra (by decide))
  have hAt : hexAt s.css (s.pos + bsFwd s.css (s.pos + 1) + 1) = true := by
    unfold hexAt
    rw [hc]
    exact hhex
  have hfp := hexFwd_pos hAt
  rw [nextToken_dispatch hr hg]
  have hred : (if isWsChar '\\' then scanSpace s
       else if isControlChar '\\' then scanControl s '\\'
       else if '\\' = '(' then scanParen s iu
       else if '\\' = '\'' || '\\' = '"' then scanQuoted s iu '\\'
       else if '\\' = '@' then scanAt s
       else if '\\' = '\\' then scanBackslash s
       else scanDefault s iu '\\') = scanBackslash s := by rfl
  rw [hred]
  simp only [scanBackslash]
  rw [if_pos hA, if_pos hAt]
  have hb : s.pos + bsFwd s.css (s.pos + 1) + 1 +
      (hexFwd s.css (s.pos + bsFwd s.css (s.pos + 1) + 1) - 1) =
      s.pos + bsFwd s.css (s.pos + 1) +
      hexFwd s.css (s.pos + bsFwd s.css (s.pos + 1) + 1) := by omega
  rw [hb]
  unfold hexEscapeEnd
  by_cases hsp : s.css.get? (s.pos + bsFwd s.css (s.pos + 1) +
      hexFwd s.css (s.pos + bsFwd s.css (s.pos + 1) + 1) + 1) = some ' '
  · rw [if_pos hsp, if_pos hsp]
  · rw [if_neg hsp, if_neg hsp]
    simp only [Nat.add_zero]

/-- C7 witness: the amended hex-escape theorem at the concrete input
`\4a ` (escape, two hex digits, one trailing space — all consumed). -/
theorem C7_witness :
    nextToken (mkTokenizer "\\4a ".toList false []) false = .ok
      (some ⟨"word", cssSlice "\\4a ".toList 0 (hexEscapeEnd "\\4a ".toList 0 + 1),
        [0, hexEscapeEnd "\\4a ".toList 0]⟩,
      { mkTokenizer "\\4a ".toList false [] with
        pos := hexEscapeEnd "\\4a ".toList 0 + 1,
        currentToken := some ⟨"word",
          cssSlice "\\4a ".toList 0 (hexEscapeEnd "\\4a ".toList 0 + 1),
          [0, hexEscapeEnd "\\4a ".toList 0]⟩ }) :=
  @C7_hex_escape (mkTokenizer "\\4a ".toList false []) false '4'
    rfl (by rfl) (by rfl) (by rfl) (by decide)

/-- C8 counterexample: in `url (a/b)` a `space` token is emitted between
the word `url` and the `(`, yet the `(` is still handled by the raw
URL-body sub-mode: the run produces a `brackets` token `(a/b)` although
the normal parenthesized mode would have rejected that content as a bad
bracket (it contains `/` after a character) and emitted a bare `(`
control token. -/
theorem C8_counterexample :
    tokensOf "url (a/b)".toList false [] =
      .ok [⟨"word", "url".toList, [0, 2]⟩, ⟨"space", " ".toList, []⟩,
        ⟨"brackets", "(a/b)".toList, [4, 8]⟩] ∧
    badBracket (cssSlice "url (a/b)".toList 4 9) = true := by
  refine ⟨rfl, by rfl⟩

/-- C8 (amended): the raw URL-body sub-mode on `(` is entered exactly
when the most recently pushed buffered `word` token (the top of the
word-lookback stack, regardless of any non-word tokens emitted in
between) has text literally `url` and the character after the `(` is
not a quote or whitespace; otherwise the `(` is handled by the normal
parenthesized-token mode.  In both cases the buffered word is popped. -/
theorem C8_url_lookback :
    (∀ (s : TState) (iu : Bool) (next : Nat),
      s.returned = [] → s.css.get? s.pos = some '(' →
      prevText s.buffer = "url".toList →
      nonUrlNext (s.css.get? (s.pos + 1)) = false →
      findUrlEnd s.css s.interpolations s.pos = some next →
      nextToken s iu = .ok
        (some ⟨"brackets", cssSlice s.css s.pos (next + 1), [s.pos, next]⟩,
        { s with
          pos := next + 1,
          buffer := s.buffer.tail,
          currentToken :=
            some ⟨"brackets", cssSlice s.css s.pos (next + 1), [s.pos, next]⟩ })) ∧
    (∀ (s : TState) (iu : Bool),
      s.returned = [] → s.css.get? s.pos = some '(' →
      ¬ (prevText s.buffer = "url".toList ∧
        nonUrlNext (s.css.get? (s.pos + 1)) = false) →
      nextToken s iu =
        match indexOfFrom s.css ')' (s.pos + 1) with
        | none => .ok (some ⟨"(", ['('], [s.pos]⟩,
            { s with
              pos := s.pos + 1,
              buffer := s.buffer.tail,
              currentToken := some ⟨"(", ['('], [s.pos]⟩ })
        | some next =>
          if badBracket (cssSlice s.css s.pos (next + 1)) then
            .ok (some ⟨"(", ['('], [s.pos]⟩,
              { s with
                pos := s.pos + 1,
                buffer := s.buffer.tail,
                currentToken := some ⟨"(", ['('], [s.pos]⟩ })
          else
            .ok (some ⟨"brackets", cssSlice s.css s.pos (next + 1), [s.pos, next]⟩,
              { s with
                pos := next + 1,
                buffer := s.buffer.tail,
                currentToken :=
                  some ⟨"brackets", cssSlice s.css s.pos (next + 1), [s.pos, next]⟩ })) := by
  constructor
  · intro s iu next hr hg hprev hn hf
    rw [nextToken_dispatch hr hg]
    have hred : (if isWsChar '(' then scanSpace s
         else if isControlChar '(' then scanControl s '('
         else if '(' = '(' then scanParen s iu
         else if '(' = '\'' || '(' = '"' then scanQuoted s iu '('
         else if '(' = '@' then scanAt s
         else if '(' = '\\' then scanBackslash s
         else scanDefault s iu '(') = scanParen s iu := by rfl
    rw [hred]
    simp only [scanParen]
    rw [if_pos ⟨hprev, hn⟩, hf]
  · intro s iu hr hg hcond
    rw [nextToken_dispatch hr hg]
    have hred : (if isWsChar '(' then scanSpace s
         else if isControlChar '(' then scanControl s '('
         else if '(' = '(' then scanParen s iu
         else if '(' = '\'' || '(' = '"' then scanQuoted s iu '('
         else if '(' = '@' then scanAt s
         else if '(' = '\\' then scanBackslash s
         else scanDefault s iu '(') = scanParen s iu := by rfl
    rw [hred]
    simp only [scanParen]
    rw [if_neg hcond]

/-- C8 witness: the url-mode half applied at the state reached in
`url (a/b)` after the word `url` and a space token: the buffered word
`url` is still the buffer top although a space token intervened, and
the `(` at offset 4 is scanned in raw URL-body mode. -/
theorem C8_witness :
    nextToken (⟨"url (a/b)".toList, false, [], 4, [⟨"word", "url".toList, [0, 2]⟩], [],
        some ⟨"space", " ".toList, []⟩⟩ : TState) false = .ok
      (some ⟨"brackets", cssSlice "url (a/b)".toList 4 9, [4, 8]⟩,
      { (⟨"url (a/b)".toList, false, [], 4, [⟨"word", "url".toList, [0, 2]⟩], [],
          some ⟨"space", " ".toList, []⟩⟩ : TState) with
        pos := 9,
        buffer := [],
        currentToken := some ⟨"brackets", cssSlice "url (a/b)".toList 4 9, [4, 8]⟩ }) :=
  C8_url_lookback.1
    (⟨"url (a/b)".toList, false, [], 4, [⟨"word", "url".toList, [0, 2]⟩], [],
      some ⟨"space", " ".toList, []⟩⟩ : TState) false 8
    rfl (by rfl) (by rfl) (by rfl) (by rfl)

theorem arity_space (text : List Char) : offsetsArityOk ⟨"space", text, []⟩ :=
  ⟨fun _ => rfl, fun h => absurd rfl h, fun h => absurd rfl h⟩

theorem arity_one {k : String} (hk1 : k ≠ "space") (hk2 : k ∈ controlKinds)
    (text : List Char) (a : Nat) : offsetsArityOk ⟨k, text, [a]⟩ :=
  ⟨fun h => absurd h hk1, fun _ _ => rfl, fun _ h => absurd hk2 h⟩

theorem arity_two {k : String} (hk1 : k ≠ "space") (hk2 : k ∉ controlKinds)
    (text : List Char) (a b : Nat) : offsetsArityOk ⟨k, text, [a, b]⟩ :=
  ⟨fun h => absurd h hk1, fun _ h => absurd h hk2, fun _ _ => rfl⟩

theorem singleton_control_mem {c : Char} (hc : isControlChar c = true) :
    String.singleton c ∈ controlKinds ∧ String.singleton c ≠ "space" := by
  unfold isControlChar at hc
  simp only [Bool.or_eq_true, decide_eq_true_eq] at hc
  rcases hc with ((((((rfl | rfl) | rfl) | rfl) | rfl) | rfl) | rfl) <;>
    exact ⟨by decide, by decide⟩

theorem scanParen_arity {s : TState} {iu : Bool} {t : Token} {s' : TState}
    (h : scanParen s iu = .ok (some t, s')) : offsetsArityOk t := by
  unfold scanParen at h
  by_cases hurl : prevText s.buffer = "url".toList ∧
      nonUrlNext (s.css.get? (s.pos + 1)) = false
  · rw [if_pos hurl] at h
    cases hf : findUrlEnd s.css s.interpolations s.pos with
    | some next =>
      rw [hf] at h
      simp only [Except.ok.injEq, Prod.mk.injEq, Option.some.injEq] at h
      obtain ⟨rfl, rfl⟩ := h
      exact arity_two (by decide) (by decide) _ _ _
    | none =>
      rw [hf] at h
      dsimp only at h
      by_cases hig : (s.ignore || iu) = true
      · rw [if_pos hig] at h
        simp only [Except.ok.injEq, Prod.mk.injEq, Option.some.injEq] at h
        obtain ⟨rfl, rfl⟩ := h
        exact arity_two (by decide) (by decide) _ _ _
      · rw [if_neg hig] at h
        exact Except.noConfusion h
  · rw [if_neg hurl] at h
    cases hf : indexOfFrom s.css ')' (s.pos + 1) with
    | none =>
      rw [hf] at h
      simp only [Except.ok.injEq, Prod.mk.injEq, Option.some.injEq] at h
      obtain ⟨rfl, rfl⟩ := h
      exact arity_one (by decide) (by decide) _ _
    | some next =>
      rw [hf] at h
      dsimp only at h
      by_cases hbad : badBracket (cssSlice s.css s.pos (next + 1)) = true
      · rw [if_pos hbad] at h
        simp only [Except.ok.injEq, Prod.mk.injEq, Option.some.injEq] at h
        obtain ⟨rfl, rfl⟩ := h
        exact arity_one (by decide) (by decide) _ _
      · rw [if_neg hbad] at h
        simp only [Except.ok.injEq, Prod.mk.injEq, Option.some.injEq] at h
        obtain ⟨rfl, rfl⟩ := h
        exact arity_two (by decide) (by decide) _ _ _

theorem scanQuoted_arity {s : TState} {iu : Bool} {q : Char} {t : Token} {s' : TState}
    (h : scanQuoted s iu q = .ok (some t, s')) : offsetsArityOk t := by
  unfold scanQuoted at h
  cases hf : findStringEnd s.css q s.pos with
  | some next =>
    rw [hf] at h
    simp only [Except.ok.injEq, Prod.mk.injEq, Option.some.injEq] at h
    obtain ⟨rfl, rfl⟩ := h
    exact arity_two (by decide) (by decide) _ _ _
  | none =>
    rw [hf] at h
    dsimp only at h
    by_cases hig : (s.ignore || iu) = true
    · rw [if_pos hig] at h
      simp only [Except.ok.injEq, Prod.mk.injEq, Option.some.injEq] at h
      obtain ⟨rfl, rfl⟩ := h
      exact arity_two (by decide) (by decide) _ _ _
    · rw [if_neg hig] at h
      exact Except.noConfusion h

theorem scanDefault_arity {s : TState} {iu : Bool} {c : Char} {t : Token} {s' : TState}
    (hcur : ∀ u, s.currentToken = some u → offsetsArityOk u)
    (h : scanDefault s iu c = .ok (some t, s')) : offsetsArityOk t := by
  unfold scanDefault at h
  by_cases hdol : c = '$'
  · rw [if_pos hdol] at h
    cases hfind : s.interpolations.find? (fun it => decide (it.start = s.pos)) with
    | none =>
      rw [hfind] at h
      simp only [Except.ok.injEq, Prod.mk.injEq] at h
      exact hcur t h.1
    | some it =>
      rw [hfind] at h
      simp only [Except.ok.injEq, Prod.mk.injEq, Option.some.injEq] at h
      obtain ⟨rfl, rfl⟩ := h
      exact arity_two (by decide) (by decide) _ _ _
  · rw [if_neg hdol] at h
    by_cases hcom : c = '/' ∧ s.css.get? (s.pos + 1) = some '*'
    · rw [if_pos hcom] at h
      cases hf : indexOf2From s.css (s.pos + 2) with
      | some m =>
        rw [hf] at h
        simp only [Except.ok.injEq, Prod.mk.injEq, Option.some.injEq] at h
        obtain ⟨rfl, rfl⟩ := h
        exact arity_two (by decide) (by decide) _ _ _
      | none =>
        rw [hf] at h
        dsimp only at h
        by_cases hig : (s.ignore || iu) = true
        · rw [if_pos hig] at h
          simp only [Except.ok.injEq, Prod.mk.injEq, Option.some.injEq] at h
          obtain ⟨rfl, rfl⟩ := h
          exact arity_two (by decide) (by decide) _ _ _
        · rw [if_neg hig] at h
          exact Except.noConfusion h
    · rw [if_neg hcom] at h
      cases hfp : findPosFrom s.css wordEndAt (s.pos + 1) with
      | none =>
        rw [hfp] at h
        dsimp only at h
        cases hfind : s.interpolations.find?
            (fun it => decide (s.pos ≤ it.start ∧ it.start ≤ (s.css.length - 1) + 1)) with
        | some it =>
          rw [hfind] at h
          simp only [Except.ok.injEq, Prod.mk.injEq, Option.some.injEq] at h
          obtain ⟨rfl, rfl⟩ := h
          exact arity_two (by decide) (by decide) _ _ _
        | none =>
          rw [hfind] at h
          simp only [Except.ok.injEq, Prod.mk.injEq, Option.some.injEq] at h
          obtain ⟨rfl, rfl⟩ := h
          exact arity_two (by decide) (by decide) _ _ _
      | some m =>
        rw [hfp] at h
        dsimp only at h
        cases hfind : s.interpolations.find?
            (fun it => decide (s.pos ≤ it.start ∧ it.start ≤ (m - 1) + 1)) with
        | some it =>
          rw [hfind] at h
          simp only [Except.ok.injEq, Prod.mk.injEq, Option.some.injEq] at h
          obtain ⟨rfl, rfl⟩ := h
          exact arity_two (by decide) (by decide) _ _ _
        | none =>
          rw [hfind] at h
          simp only [Except.ok.injEq, Prod.mk.injEq, Option.some.injEq] at h
          obtain ⟨rfl, rfl⟩ := h
          exact arity_two (by decide) (by decide) _ _ _

/-- C10: every token the tokenizer returns respects the offset-arity
contract — `space` tokens carry no offsets, single-character control
tokens (`(`, `)`, `[`, `]`, braces, `:`, `;`) carry exactly the `start`
offset, and every other kind carries both `start` and `end` — provided
tokens previously pushed back (and any stale `currentToken`) respect it
too. -/
theorem C10_offsets_arity :
    ∀ (s : TState) (iu : Bool) (t : Token) (s' : TState),
    (∀ u ∈ s.returned, offsetsArityOk u) →
    (∀ u, s.currentToken = some u → offsetsArityOk u) →
    nextToken s iu = .ok (some t, s') → offsetsArityOk t := by
  intro s iu t s' hret hcur h
  unfold nextToken at h
  cases hr : s.returned with
  | cons u rest =>
    rw [hr] at h
    simp only [Except.ok.injEq, Prod.mk.injEq, Option.some.injEq] at h
    exact h.1 ▸ hret u (hr ▸ List.mem_cons_self u rest)
  | nil =>
    rw [hr] at h
    dsimp only at h
    cases hg : s.css.get? s.pos with
    | none =>
      rw [hg] at h
      simp only [Except.ok.injEq, Prod.mk.injEq] at h
      exact Option.noConfusion h.1
    | some c =>
      rw [hg] at h
      dsimp only at h
      by_cases h1 : isWsChar c = true
      · rw [if_pos h1] at h
        simp only [scanSpace, Except.ok.injEq, Prod.mk.injEq, Option.some.injEq] at h
        obtain ⟨rfl, rfl⟩ := h
        exact arity_space _
      · rw [if_neg h1] at h
        by_cases h2 : isControlChar c = true
        · rw [if_pos h2] at h
          simp only [scanControl, Except.ok.injEq, Prod.mk.injEq, Option.some.injEq] at h
          obtain ⟨rfl, rfl⟩ := h
          have hm := singleton_control_mem h2
          exact arity_one hm.2 hm.1 _ _
        · rw [if_neg h2] at h
          by_cases h3 : c = '('
          · rw [if_pos h3] at h
            exact scanParen_arity h
          · rw [if_neg h3] at h
            by_cases h4 : (c = '\'' || c = '"') = true
            · rw [if_pos h4] at h
              exact scanQuoted_arity h
            · rw [if_neg h4] at h
              by_cases h5 : c = '@'
              · rw [if_pos h5] at h
                simp only [scanAt, Except.ok.injEq, Prod.mk.injEq, Option.some.injEq] at h
                obtain ⟨rfl, rfl⟩ := h
                exact arity_two (by decide) (by decide) _ _ _
              · rw [if_neg h5] at h
                by_cases h6 : c = '\\'
                · rw [if_pos h6] at h
                  simp only [scanBackslash, Except.ok.injEq, Prod.mk.injEq,
                    Option.some.injEq] at h
                  obtain ⟨rfl, rfl⟩ := h
                  exact arity_two (by decide) (by decide) _ _ _
                · rw [if_neg h6] at h
                  exact scanDefault_arity hcur h

/-- C10 witness: the arity invariant applied to the first token of the
input `a` from a fresh tokenizer (empty pushback, no stale token). -/
theorem C10_witness : offsetsArityOk ⟨"word", "a".toList, [0, 0]⟩ :=
  C10_offsets_arity (mkTokenizer "a".toList false []) false
    ⟨"word", "a".toList, [0, 0]⟩
    ⟨"a".toList, false, [], 1, [⟨"word", "a".toList, [0, 0]⟩], [],
      some ⟨"word", "a".toList, [0, 0]⟩⟩
    (fun u hu => absurd hu (List.not_mem_nil u))
    (fun u hu => Option.noConfusion hu) rfl

theorem cssSlice_to_end {css : List Char} {a b : Nat} (h : css.length ≤ b) :
    cssSlice css a b = css.drop a := by
  unfold cssSlice
  apply List.take_of_length_le
  rw [List.length_drop]
  omega

theorem scanQuoted_error {s : TState} {iu : Bool} {q : Char} {e : TokError}
    (h : scanQuoted s iu q = .error e) :
    e = ⟨"string", s.pos⟩ ∧ s.ignore = false ∧ iu = false := by
  unfold scanQuoted at h
  cases hf : findStringEnd s.css q s.pos with
  | some next =>
    rw [hf] at h
    exact Except.noConfusion h
  | none =>
    rw [hf] at h
    dsimp only at h
    by_cases hig : (s.ignore || iu) = true
    · rw [if_pos hig] at h
      exact Except.noConfusion h
    · rw [if_neg hig] at h
      simp only [Except.error.injEq] at h
      simp only [Bool.or_eq_true] at hig
      push_neg at hig
      exact ⟨h.symm, Bool.eq_false_iff.2 hig.1, Bool.eq_false_iff.2 hig.2⟩

theorem scanParen_error {s : TState} {iu : Bool} {e : TokError}
    (h : scanParen s iu = .error e) :
    e = ⟨"bracket", s.pos⟩ ∧ s.ignore = false ∧ iu = false := by
  unfold scanParen at h
  by_cases hurl : prevText s.buffer = "url".toList ∧
      nonUrlNext (s.css.get? (s.pos + 1)) = false
  · rw [if_pos hurl] at h
    cases hf : findUrlEnd s.css s.interpolations s.pos with
    | some next =>
      rw [hf] at h
      exact Except.noConfusion h
    | none =>
      rw [hf] at h
      dsimp only at h
      by_cases hig : (s.ignore || iu) = true
      · rw [if_pos hig] at h
        exact Except.noConfusion h
      · rw [if_neg hig] at h
        simp only [Except.error.injEq] at h
        simp only [Bool.or_eq_true] at hig
        push_neg at hig
        exact ⟨h.symm, Bool.eq_false_iff.2 hig.1, Bool.eq_false_iff.2 hig.2⟩
  · rw [if_neg hurl] at h
    cases hf : indexOfFrom s.css ')' (s.pos + 1) with
    | none =>
      rw [hf] at h
      exact Except.noConfusion h
    | some next =>
      rw [hf] at h
      dsimp only at h
      by_cases hbad : badBracket (cssSlice s.css s.pos (next + 1)) = true
      · rw [if_pos hbad] at h
        exact Except.noConfusion h
      · rw [if_neg hbad] at h
        exact Except.noConfusion h

theorem scanDefault_error {s : TState} {iu : Bool} {c : Char} {e : TokError}
    (h : scanDefault s iu c = .error e) :
    e = ⟨"comment", s.pos⟩ ∧ s.ignore = false ∧ iu = false := by
  unfold scanDefault at h
  by_cases hdol : c = '$'
  · rw [if_pos hdol] at h
    cases hfind : s.interpolations.find? (fun it => decide (it.start = s.pos)) with
    | none =>
      rw [hfind] at h
      exact Except.noConfusion h
    | some it =>
      rw [hfind] at h
      exact Except.noConfusion h
  · rw [if_neg hdol] at h
    by_cases hcom : c = '/' ∧ s.css.get? (s.pos + 1) = some '*'
    · rw [if_pos hcom] at h
      cases hf : indexOf2From s.css (s.pos + 2) with
      | some m =>
        rw [hf] at h
        exact Except.noConfusion h
      | none =>
        rw [hf] at h
        dsimp only at h
        by_cases hig : (s.ignore || iu) = true
        · rw [if_pos hig] at h
          exact Except.noConfusion h
        · rw [if_neg hig] at h
          simp only [Except.error.injEq] at h
          simp only [Bool.or_eq_true] at hig
          push_neg at hig
          exact ⟨h.symm, Bool.eq_false_iff.2 hig.1, Bool.eq_false_iff.2 hig.2⟩
    · rw [if_neg hcom] at h
      cases hfp : findPosFrom s.css wordEndAt (s.pos + 1) with
      | none =>
        rw [hfp] at h
        dsimp only at h
        cases hfind : s.interpolations.find?
            (fun it => decide (s.pos ≤ it.start ∧ it.start ≤ (s.css.length - 1) + 1)) with
        | some it =>
          rw [hfind] at h
          exact Except.noConfusion h
        | none =>
          rw [hfind] at h
          exact Except.noConfusion h
      | some m =>
        rw [hfp] at h
        dsimp only at h
        cases hfind : s.interpolations.find?
            (fun it => decide (s.pos ≤ it.start ∧ it.start ≤ (m - 1) + 1)) with
        | some it =>
          rw [hfind] at h
          exact Except.noConfusion h
        | none =>
          rw [hfind] at h
          exact Except.noConfusion h

/-- Every error `nextToken` can raise carries the cursor position —
which is the offset of the opening delimiter of the unterminated
construct, since classification starts at that delimiter — and errors
are raised only when both the instance-level `ignoreErrors` flag and
the per-call `ignoreUnclosed` flag are unset. -/
theorem nextToken_error_cases {s : TState} {iu : Bool} {e : TokError}
    (h : nextToken s iu = .error e) :
    e.offset = s.pos ∧ s.ignore = false ∧ iu = false := by
  unfold nextToken at h
  cases hr : s.returned with
  | cons u rest =>
    rw [hr] at h
    exact Except.noConfusion h
  | nil =>
    rw [hr] at h
    dsimp only at h
    cases hg : s.css.get? s.pos with
    | none =>
      rw [hg] at h
      exact Except.noConfusion h
    | some c =>
      rw [hg] at h
      dsimp only at h
      by_cases h1 : isWsChar c = true
      · rw [if_pos h1] at h
        simp only [scanSpace] at h
        exact Except.noConfusion h
      · rw [if_neg h1] at h
        by_cases h2 : isControlChar c = true
        · rw [if_pos h2] at h
          simp only [scanControl] at h
          exact Except.noConfusion h
        · rw [if_neg h2] at h
          by_cases h3 : c = '('
          · rw [if_pos h3] at h
            have := scanParen_error h
            exact ⟨by rw [this.1], this.2.1, this.2.2⟩
          · rw [if_neg h3] at h
            by_cases h4 : (c = '\'' || c = '"') = true
            · rw [if_pos h4] at h
              have := scanQuoted_error h
              exact ⟨by rw [this.1], this.2.1, this.2.2⟩
            · rw [if_neg h4] at h
              by_cases h5 : c = '@'
              · rw [if_pos h5] at h
                simp only [scanAt] at h
                exact Except.noConfusion h
              · rw [if_neg h5] at h
                by_cases h6 : c = '\\'
                · rw [if_pos h6] at h
                  simp only [scanBackslash] at h
                  exact Except.noConfusion h
                · rw [if_neg h6] at h
                  have := scanDefault_error h
                  exact ⟨by rw [this.1], this.2.1, this.2.2⟩

theorem nextToken_comment_degrade {s : TState} {iu : Bool}
    (hr : s.returned = [])
    (hg : s.css.get? s.pos = some '/')
    (hg2 : s.css.get? (s.pos + 1) = some '*')
    (hf : indexOf2From s.css (s.pos + 2) = none)
    (hig : (s.ignore || iu) = true) :
    nextToken s iu = .ok
      (some ⟨"comment", cssSlice s.css s.pos (s.css.length + 1), [s.pos, s.css.length]⟩,
      { s with
        pos := s.css.length + 1,
        currentToken := some ⟨"comment", cssSlice s.css s.pos (s.css.length + 1),
          [s.pos, s.css.length]⟩ }) := by
  rw [nextToken_dispatch hr hg]
  have hred : (if isWsChar '/' then scanSpace s
       else if isControlChar '/' then scanControl s '/'
       else if '/' = '(' then scanParen s iu
       else if '/' = '\'' || '/' = '"' then scanQuoted s iu '/'
       else if '/' = '@' then scanAt s
       else if '/' = '\\' then scanBackslash s
       else scanDefault s iu '/') = scanDefault s iu '/' := by rfl
  rw [hred]
  simp only [scanDefault]
  rw [if_neg (by decide : ¬ ('/' = '$')), if_pos (And.intro trivial hg2), hf]
  dsimp only
  rw [if_pos hig]

theorem nextToken_string_degrade {s : TState} {iu : Bool} {q : Char}
    (hr : s.returned = [])
    (hg : s.css.get? s.pos = some q)
    (hq : q = '\'' ∨ q = '"')
    (hf : findStringEnd s.css q s.pos = none)
    (hig : (s.ignore || iu) = true) :
    nextToken s iu = .ok
      (some ⟨"string", cssSlice s.css s.pos (s.pos + 2), [s.pos, s.pos + 1]⟩,
      { s with
        pos := s.pos + 2,
        currentToken := some ⟨"string", cssSlice s.css s.pos (s.pos + 2),
          [s.pos, s.pos + 1]⟩ }) := by
  rcases hq with rfl | rfl
  · rw [nextToken_dispatch hr hg]
    have hred : (if isWsChar '\'' then scanSpace s
         else if isControlChar '\'' then scanControl s '\''
         else if '\'' = '(' then scanParen s iu
         else if '\'' = '\'' || '\'' = '"' then scanQuoted s iu '\''
         else if '\'' = '@' then scanAt s
         else if '\'' = '\\' then scanBackslash s
         else scanDefault s iu '\'') = scanQuoted s iu '\'' := by rfl
    rw [hred]
    simp only [scanQuoted]
    rw [hf]
    dsimp only
    rw [if_pos hig]
  · rw [nextToken_dispatch hr hg]
    have hred : (if isWsChar '"' then scanSpace s
         else if isControlChar '"' then scanControl s '"'
         else if '"' = '(' then scanParen s iu
         else if '"' = '\'' || '"' = '"' then scanQuoted s iu '"'
         else if '"' = '@' then scanAt s
         else if '"' = '\\' then scanBackslash s
         else scanDefault s iu '"') = scanQuoted s iu '"' := by rfl
    rw [hred]
    simp only [scanQuoted]
    rw [hf]
    dsimp only
    rw [if_pos hig]

theorem nextToken_bracket_degrade {s : TState} {iu : Bool}
    (hr : s.returned = [])
    (hg : s.css.get? s.pos = some '(')
    (hprev : prevText s.buffer = "url".toList)
    (hn : nonUrlNext (s.css.get? (s.pos + 1)) = false)
    (hf : findUrlEnd s.css s.interpolations s.pos = none)
    (hig : (s.ignore || iu) = true) :
    nextToken s iu = .ok
      (some ⟨"brackets", cssSlice s.css s.pos (s.pos + 1), [s.pos, s.pos]⟩,
      { s with
        pos := s.pos + 1,
        buffer := s.buffer.tail,
        currentToken := some ⟨"brackets", cssSlice s.css s.pos (s.pos + 1),
          [s.pos, s.pos]⟩ }) := by
  rw [nextToken_dispatch hr hg]
  have hred : (if isWsChar '(' then scanSpace s
       else if isControlChar '(' then scanControl s '('
       else if '(' = '(' then scanParen s iu
       else if '(' = '\'' || '(' = '"' then scanQuoted s iu '('
       else if '(' = '@' then scanAt s
       else if '(' = '\\' then scanBackslash s
       else scanDefault s iu '(') = scanParen s iu := by rfl
  rw [hred]
  simp only [scanParen]
  rw [if_pos ⟨hprev, hn⟩, hf]
  dsimp only
  rw [if_pos hig]

theorem nextToken_progress {s : TState} {iu : Bool} {r : Option Token} {s' : TState}
    (hr : s.returned = [])
    (hwf : ∀ it ∈ s.interpolations, it.start ≤ it.endPos)
    (hp : s.pos < s.css.length)
    (h : nextToken s iu = .ok (r, s')) : s.pos < s'.pos := by
  by_cases hnd : s.css.get? s.pos = some '$' ∧
      s.interpolations.find? (fun it => decide (it.start = s.pos)) = none
  · rw [nextToken_dollar_fallthrough hr hnd.1 hnd.2] at h
    simp only [Except.ok.injEq, Prod.mk.injEq] at h
    rw [← h.2]
    dsimp only
    omega
  · rcases nextToken_ok_cases hr hwf hnd h with ⟨rfl, rfl, hpe⟩ | ⟨t, rfl, hstep⟩
    · omega
    · exact hstep.1

/-- C4: the propagation policy of the three unclosed-construct errors.
By default the scanner raises immediately, with the offset of the
opening delimiter (the cursor position, where classification started).
When `ignoreErrors` or `ignoreUnclosed` is set no error is ever raised;
instead the scanner returns a best-effort token — extending to
end-of-input for comments, a truncated two-character-or-less token for
strings, a one-character token for unclosed raw `url(` brackets — and
every successful call made strictly before end-of-input advances the
cursor, so repeated calls still reach `endOfFile()`. -/
theorem C4_unclosed_policy :
    (∀ (s : TState) (iu : Bool) (e : TokError),
      nextToken s iu = .error e → e.offset = s.pos) ∧
    (∀ (s : TState) (iu : Bool) (e : TokError),
      s.ignore = true ∨ iu = true → nextToken s iu ≠ .error e) ∧
    (∀ (s : TState) (iu : Bool),
      s.returned = [] → s.css.get? s.pos = some '/' →
      s.css.get? (s.pos + 1) = some '*' → indexOf2From s.css (s.pos + 2) = none →
      (s.ignore || iu) = true →
      nextToken s iu = .ok
        (some ⟨"comment", cssSlice s.css s.pos (s.css.length + 1), [s.pos, s.css.length]⟩,
        { s with
          pos := s.css.length + 1,
          currentToken := some ⟨"comment", cssSlice s.css s.pos (s.css.length + 1),
            [s.pos, s.css.length]⟩ }) ∧
      cssSlice s.css s.pos (s.css.length + 1) = s.css.drop s.pos) ∧
    (∀ (s : TState) (iu : Bool) (q : Char),
      s.returned = [] → s.css.get? s.pos = some q → q = '\'' ∨ q = '"' →
      findStringEnd s.css q s.pos = none → (s.ignore || iu) = true →
      nextToken s iu = .ok
        (some ⟨"string", cssSlice s.css s.pos (s.pos + 2), [s.pos, s.pos + 1]⟩,
        { s with
          pos := s.pos + 2,
          currentToken := some ⟨"string", cssSlice s.css s.pos (s.pos + 2),
            [s.pos, s.pos + 1]⟩ }) ∧
      (cssSlice s.css s.pos (s.pos + 2)).length ≤ 2) ∧
    (∀ (s : TState) (iu : Bool),
      s.returned = [] → s.css.get? s.pos = some '(' →
      prevText s.buffer = "url".toList →
      nonUrlNext (s.css.get? (s.pos + 1)) = false →
      findUrlEnd s.css s.interpolations s.pos = none → (s.ignore || iu) = true →
      nextToken s iu = .ok
        (some ⟨"brackets", cssSlice s.css s.pos (s.pos + 1), [s.pos, s.pos]⟩,
        { s with
          pos := s.pos + 1,
          buffer := s.buffer.tail,
          currentToken := some ⟨"brackets", cssSlice s.css s.pos (s.pos + 1),
            [s.pos, s.pos]⟩ }) ∧
      (cssSlice s.css s.pos (s.pos + 1)).length = 1) ∧
    (∀ (s : TState) (iu : Bool) (r : Option Token) (s' : TState),
      s.returned = [] → (∀ it ∈ s.interpolations, it.start ≤ it.endPos) →
      s.pos < s.css.length → nextToken s iu = .ok (r, s') → s.pos < s'.pos) := by
  refine ⟨?_, ?_, ?_, ?_, ?_, ?_⟩
  · intro s iu e h
    exact (nextToken_error_cases h).1
  · intro s iu e hig h
    have := nextToken_error_cases h
    rcases hig with hig | hig
    · rw [hig] at this
      exact Bool.noConfusion this.2.1
    · rw [hig] at this
      exact Bool.noConfusion this.2.2
  · intro s iu hr hg hg2 hf hig
    refine ⟨nextToken_comment_degrade hr hg hg2 hf hig, cssSlice_to_end (by omega)⟩
  · intro s iu q hr hg hq hf hig
    refine ⟨nextToken_string_degrade hr hg hq hf hig, ?_⟩
    unfold cssSlice
    rw [Nat.add_sub_cancel_left]
    rw [List.length_take]
    exact min_le_left _ _
  · intro s iu hr hg hprev hn hf hig
    refine ⟨nextToken_bracket_degrade hr hg hprev hn hf hig, ?_⟩
    rw [cssSlice_singleton hg]
    rfl
  · intro s iu r s' hr hwf hp h
    exact nextToken_progress hr hwf hp h

/-- C4 witness: the policy theorem applied at concrete inputs — the
default-mode error for `"ab` carries offset 0, the permissive mode
produces the truncated two-character string token for the same input,
and the first call on `a` advances the cursor. -/
theorem C4_witness :
    (TokError.mk "string" 0).offset = (mkTokenizer "\"ab".toList false []).pos ∧
    (nextToken (mkTokenizer "\"ab".toList true []) false = .ok
      (some ⟨"string", cssSlice "\"ab".toList 0 2, [0, 1]⟩,
      { mkTokenizer "\"ab".toList true [] with
        pos := 2,
        currentToken := some ⟨"string", cssSlice "\"ab".toList 0 2, [0, 1]⟩ }) ∧
      (cssSlice "\"ab".toList 0 2).length ≤ 2) ∧
    (mkTokenizer "a".toList false []).pos <
      (⟨"a".toList, false, [], 1, [⟨"word", "a".toList, [0, 0]⟩], [],
        some ⟨"word", "a".toList, [0, 0]⟩⟩ : TState).pos := by
  refine ⟨?_, ?_, ?_⟩
  · exact C4_unclosed_policy.1 (mkTokenizer "\"ab".toList false []) false ⟨"string", 0⟩ rfl
  · exact C4_unclosed_policy.2.2.2.1 (mkTokenizer "\"ab".toList true []) false '"'
      rfl (by rfl) (Or.inr rfl) (by rfl) (by rfl)
  · exact C4_unclosed_policy.2.2.2.2.2 (mkTokenizer "a".toList false []) false
      (some ⟨"word", "a".toList, [0, 0]⟩)
      ⟨"a".toList, false, [], 1, [⟨"word", "a".toList, [0, 0]⟩], [],
        some ⟨"word", "a".toList, [0, 0]⟩⟩
      rfl (fun it hit => absurd hit (List.not_mem_nil it)) (by decide) rfl
